import Mathlib

/-!
Verification of the activity-log viewer's core ingestion and derivation
pipeline: line parsing, requirement range expansion, multi-index building,
START/terminal event pairing, phase-completion aggregation, and the polling
watcher's failure state machine.

The TypeScript sources are embedded shallowly: JavaScript Map and Set are
modelled as insertion-ordered association lists (JS iteration order is
insertion order, which the derived structures rely on), JS numbers holding
counts and sequence ids are modelled as Nat, and nullable fields as Option.
-/

set_option maxHeartbeats 1000000

namespace ActivityViewer

/-- Model of the LogEntry record from src/client/types/log-entry.ts.
The action field is a string at runtime (unknown actions flow through as
opaque strings), so it is modelled as String rather than a closed enum. -/
structure LogEntry where
  log_seq : Nat
  work_seq : String
  timestamp : String
  agent : String
  action : String
  phase : String
  parent_log_seq : Option Nat
  requirements : List String
  task_id : Option String
  details : String
  files_created : List String
  files_modified : List String
  decisions : List String
  errors : List String
  duration_ms : Option Nat
deriving DecidableEq, Repr, Inhabited

/-- Model of a JavaScript Map's set: overwrite in place if the key exists
(keeping its insertion position), otherwise append at the end. -/
def mapSet {K V : Type} [DecidableEq K] (m : List (K × V)) (k : K) (v : V) :
    List (K × V) :=
  if m.any (fun p => decide (p.1 = k)) then
    m.map (fun p => if p.1 = k then (k, v) else p)
  else m ++ [(k, v)]

/-- Model of a JavaScript Map's get: the value of the first entry with the key. -/
def mapGet {K V : Type} [DecidableEq K] (m : List (K × V)) (k : K) : Option V :=
  (m.find? (fun p => decide (p.1 = k))).map (fun p => p.2)

/-- Model of the get-or-create-then-push idiom on a Map from keys to arrays:
append v to the array at key k, creating the key at the end if absent. -/
def mapPush {K V : Type} [DecidableEq K] (m : List (K × List V)) (k : K) (v : V) :
    List (K × List V) :=
  if m.any (fun p => decide (p.1 = k)) then
    m.map (fun p => if p.1 = k then (p.1, p.2 ++ [v]) else p)
  else m ++ [(k, [v])]

/-- Model of a JavaScript Set's add: append if not already present. -/
def setAdd (s : List String) (a : String) : List String :=
  if a ∈ s then s else s ++ [a]

namespace LogParser

/-! The parser module src/client/parser/log-parser.ts (provided as
src/unnamed/part_006, lines 84-214). JSON.parse and the platform coercions
String(), Array.isArray and performance.now are external built-ins; they are
abstracted into the RawLine input type and a zero parse time, while every
decision the module itself makes — the required-field rejection, the
optional-field defaults, the skip counting, the watermark filter and the
range regex — is embedded directly from the code. -/

/-- Lower-cased code point of a character: ASCII uppercase letters are shifted
into lowercase, everything else is left alone. This models the /i flag's
canonicalisation for the ASCII repertoire the requirement ids use. -/
def lcCode (c : Char) : Nat :=
  if 65 ≤ c.toNat ∧ c.toNat ≤ 90 then c.toNat + 32 else c.toNat

/-- Case-insensitive character equality used by the /i regex match. -/
def ciEq (a b : Char) : Bool := lcCode a == lcCode b

/-- Case-insensitive list equality: the backreference comparison of the /i
regex, which requires equal length and characterwise canonical equality. -/
def ciListEq : List Char → List Char → Bool
  | [], [] => true
  | x :: xs, y :: ys => ciEq x y && ciListEq xs ys
  | _, _ => false

/-- The regex digit class backslash-d: exactly the ASCII decimal digits. -/
def isDigitC (c : Char) : Bool := decide (48 ≤ c.toNat ∧ c.toNat ≤ 57)

/-- The regex whitespace class backslash-s of ECMAScript: tab through carriage
return, space, and the Unicode space separators. -/
def isWsC (c : Char) : Bool :=
  decide (c.toNat = 9 ∨ c.toNat = 10 ∨ c.toNat = 11 ∨ c.toNat = 12 ∨
    c.toNat = 13 ∨ c.toNat = 32 ∨ c.toNat = 160 ∨ c.toNat = 5760 ∨
    (8192 ≤ c.toNat ∧ c.toNat ≤ 8202) ∨ c.toNat = 8232 ∨ c.toNat = 8233 ∨
    c.toNat = 8239 ∨ c.toNat = 8287 ∨ c.toNat = 12288 ∨ c.toNat = 65279)

/-- The regex dot without the s flag: every character except the four
ECMAScript line terminators. -/
def isDotC (c : Char) : Bool :=
  decide (¬ (c.toNat = 10 ∨ c.toNat = 13 ∨ c.toNat = 8232 ∨ c.toNat = 8233))

/-- Numeric value of a decimal digit character. -/
def digitVal (c : Char) : Nat := c.toNat - 48

/-- Model of parseInt(s, 10) on an all-digit capture: the value of a
most-significant-first decimal digit string. -/
def digitsToNat (ds : List Char) : Nat :=
  ds.foldl (fun n c => n * 10 + digitVal c) 0

/-- Model of String(i).padStart(width, zero): decimal digits of i, left-padded
with zeros to the requested width. -/
def zeroPad (w : Nat) (n : Nat) : String :=
  let s := toString n
  String.mk (List.replicate (w - s.length) '0') ++ s

/-- The literal word of the range pattern. -/
def thruChars : List Char := "through".toList

/-- Does the text start with the pattern, case-insensitively? Used for the
literal through of the range regex. -/
def matchesAt : List Char → List Char → Bool
  | [], _ => true
  | _ :: _, [] => false
  | p :: ps, c :: cs => ciEq c p && matchesAt ps cs

/-! A backtracking matcher for the source's anchored range pattern
(part_006 line 184): caret, group one as dot-plus then an optional hyphen,
group two as a digit run, whitespace, through, whitespace, a backreference
to group one, group three as a digit run, dollar, all under the /i flag.
Each quantifier is greedy: it consumes as much as possible and gives back
one character at a time when the rest of the pattern fails, which is the
ECMAScript preference order. The stages below run left to right; g1 and g2
carry the text captured so far by groups one and two. -/

/-- Tail of the pattern after the second whitespace run: the backreference to
group one, then group three as a digit run that must reach the end. -/
def g3End (g1 g2 : List Char) (t : List Char) : Option (List Char × List Char) :=
  if ciListEq g1 (t.take g1.length) then
    let t2 := t.drop g1.length
    if t2.isEmpty then none
    else if t2.all isDigitC then some (g2, t2) else none
  else none

/-- Greedy continuation of the second whitespace run (one character already
consumed): extend while possible, backtrack into the pattern tail. -/
def ws2Go (g1 g2 : List Char) : List Char → Option (List Char × List Char)
  | [] => g3End g1 g2 []
  | c :: rest =>
    if isWsC c then
      match ws2Go g1 g2 rest with
      | some r => some r
      | none => g3End g1 g2 (c :: rest)
    else g3End g1 g2 (c :: rest)

/-- The second whitespace run: at least one whitespace character. -/
def ws2Start (g1 g2 : List Char) : List Char → Option (List Char × List Char)
  | [] => none
  | c :: rest => if isWsC c then ws2Go g1 g2 rest else none

/-- The literal through, case-insensitively, then the second whitespace run. -/
def thrStep (g1 g2 : List Char) (t : List Char) : Option (List Char × List Char) :=
  if matchesAt thruChars t then ws2Start g1 g2 (t.drop thruChars.length) else none

/-- Greedy continuation of the first whitespace run. -/
def ws1Go (g1 g2 : List Char) : List Char → Option (List Char × List Char)
  | [] => thrStep g1 g2 []
  | c :: rest =>
    if isWsC c then
      match ws1Go g1 g2 rest with
      | some r => some r
      | none => thrStep g1 g2 (c :: rest)
    else thrStep g1 g2 (c :: rest)

/-- The first whitespace run: at least one whitespace character. -/
def ws1Start (g1 g2 : List Char) : List Char → Option (List Char × List Char)
  | [] => none
  | c :: rest => if isWsC c then ws1Go g1 g2 rest else none

/-- Greedy continuation of group two's digit run. -/
def g2Go (g1 g2 : List Char) : List Char → Option (List Char × List Char)
  | [] => ws1Start g1 g2 []
  | c :: rest =>
    if isDigitC c then
      match g2Go g1 (g2 ++ [c]) rest with
      | some r => some r
      | none => ws1Start g1 g2 (c :: rest)
    else ws1Start g1 g2 (c :: rest)

/-- Group two: a digit run of at least one digit. -/
def matchG2 (g1 : List Char) : List Char → Option (List Char × List Char)
  | [] => none
  | c :: rest => if isDigitC c then g2Go g1 [c] rest else none

/-- The optional hyphen closing group one: with the hyphen first (greedy),
then without. -/
def dashStep (g1 : List Char) (t : List Char) :
    Option (List Char × List Char × List Char) :=
  let withDash :=
    match t with
    | c :: rest =>
      if c = '-' then
        (matchG2 (g1 ++ ['-']) rest).map
          (fun p : List Char × List Char => (g1 ++ ['-'], p.1, p.2))
      else none
    | [] => none
  match withDash with
  | some r => some r
  | none =>
    (matchG2 g1 t).map (fun p : List Char × List Char => (g1, p.1, p.2))

/-- Greedy continuation of group one's dot-plus: extend while the dot can
consume, backtrack into the optional hyphen and the rest of the pattern. -/
def g1Go (g1 : List Char) : List Char → Option (List Char × List Char × List Char)
  | [] => dashStep g1 []
  | c :: rest =>
    if isDotC c then
      match g1Go (g1 ++ [c]) rest with
      | some r => some r
      | none => dashStep g1 (c :: rest)
    else dashStep g1 (c :: rest)

/-- The full anchored match of the range pattern, returning the three capture
groups of the first successful assignment in preference order. -/
def rangeMatch (s : String) : Option (List Char × List Char × List Char) :=
  match s.toList with
  | [] => none
  | c :: rest => if isDotC c then g1Go [c] rest else none

/-- Model of expandRequirementRange from log-parser.ts (part_006 lines
183-203): match the range pattern; on failure or a descending range return
the original string as a singleton, otherwise enumerate from the first
captured number to the second, each padded to the width of the first capture
and prepended with the captured prefix. -/
def expandRequirementRange (rangeStr : String) : List String :=
  match rangeMatch rangeStr with
  | none => [rangeStr]
  | some (pfxG, startG, endG) =>
    let start := digitsToNat startG
    let stop := digitsToNat endG
    let padLength := startG.length
    if stop < start then [rangeStr]
    else
      (List.range' start (stop + 1 - start)).map
        (fun i => String.mk pfxG ++ zeroPad padLength i)

/-- Model of expandAllRequirements from log-parser.ts (part_006 lines
208-214): the per-element expansions concatenated in order. -/
def expandAllRequirements (reqs : List String) : List String :=
  reqs.flatMap expandRequirementRange

/-- The shape of one JSON.parse result as far as parseLine's checks reach. A
field that is absent, null or undefined is none here (the three cases
part_006 lines 94-98 treat alike); a present field carries its value after
the platform coercions of lines 100-124, which are abstracted into this
type. A top-level JSON array is an object with none of the named fields. -/
structure RawRecord where
  log_seq : Option Nat
  work_seq : Option String
  timestamp : Option String
  agent : Option String
  action : Option String
  phase : Option String
  parent_log_seq : Option Nat
  requirements : Option (List String)
  task_id : Option String
  details : Option String
  files_created : Option (List String)
  files_modified : Option (List String)
  decisions : Option (List String)
  errors : Option (List String)
  duration_ms : Option Nat
deriving DecidableEq, Repr

/-- One physical input line, classified by what JSON.parse does with it:
blank (or whitespace-only), not parseable as JSON at all, parseable as a
top-level JSON primitive (a number, string, boolean or null — on which the
field-membership test of line 95 is a type error), or parseable as an
object with some set of fields. -/
inductive RawLine where
  | blank
  | notWellFormed
  | primitive
  | record (r : RawRecord)
deriving DecidableEq, Repr

/-- Blank or whitespace-only line test (the bang-trim guard). -/
def isBlank : RawLine → Bool
  | RawLine.blank => true
  | _ => false

/-- Model of parseLine from log-parser.ts (part_006 lines 84-127). A blank
line and unparseable JSON yield null; a line whose JSON is a top-level
primitive reaches the in operator of line 95 outside the try block and
throws a TypeError, modelled as an error; an object missing any of the
required fields log_seq, timestamp, agent, action yields null; otherwise
the entry is built with the documented defaults for optional fields. -/
def parseLine : RawLine → Except Unit (Option LogEntry)
  | RawLine.blank => Except.ok none
  | RawLine.notWellFormed => Except.ok none
  | RawLine.primitive => Except.error ()
  | RawLine.record r =>
    match r.log_seq, r.timestamp, r.agent, r.action with
    | some ls, some ts, some ag, some ac =>
      Except.ok (some
        { log_seq := ls
          work_seq := r.work_seq.getD ""
          timestamp := ts
          agent := ag
          action := ac
          phase := r.phase.getD ""
          parent_log_seq := r.parent_log_seq
          requirements := r.requirements.getD []
          task_id := r.task_id
          details := r.details.getD ""
          files_created := r.files_created.getD []
          files_modified := r.files_modified.getD []
          decisions := r.decisions.getD []
          errors := r.errors.getD []
          duration_ms := r.duration_ms })
    | _, _, _, _ => Except.ok none

/-- Result shape of a parse: the valid events in input order and the count of
non-blank lines that failed to parse. Elapsed wall-clock time comes from the
external performance.now and is fixed at zero. -/
structure ParseResult where
  entries : List LogEntry
  skippedLines : Nat
  parseTimeMs : Nat
deriving DecidableEq, Repr

/-- Model of parseLogContent from log-parser.ts (part_006 lines 129-148),
over the already-split lines: blank lines are skipped, a null parse
increments the skip count, a valid parse contributes its entry, and the
uncaught TypeError of a primitive line aborts the whole parse. -/
def parseLogContent : List RawLine → Except Unit ParseResult
  | [] => Except.ok { entries := [], skippedLines := 0, parseTimeMs := 0 }
  | l :: ls =>
    if isBlank l then parseLogContent ls
    else
      match parseLine l with
      | Except.error e => Except.error e
      | Except.ok none =>
        match parseLogContent ls with
        | Except.error e => Except.error e
        | Except.ok r => Except.ok { r with skippedLines := r.skippedLines + 1 }
      | Except.ok (some entry) =>
        match parseLogContent ls with
        | Except.error e => Except.error e
        | Except.ok r => Except.ok { r with entries := entry :: r.entries }

/-- Model of parseIncrementalContent from log-parser.ts (part_006 lines
154-177): identical parsing, but a valid entry is retained only when its
log_seq is strictly greater than the supplied watermark; skipped lines are
counted exactly as in a full parse. -/
def parseIncrementalContent (lines : List RawLine) (lastLogSeq : Nat) :
    Except Unit ParseResult :=
  match lines with
  | [] => Except.ok { entries := [], skippedLines := 0, parseTimeMs := 0 }
  | l :: ls =>
    if isBlank l then parseIncrementalContent ls lastLogSeq
    else
      match parseLine l with
      | Except.error e => Except.error e
      | Except.ok none =>
        match parseIncrementalContent ls lastLogSeq with
        | Except.error e => Except.error e
        | Except.ok r => Except.ok { r with skippedLines := r.skippedLines + 1 }
      | Except.ok (some entry) =>
        match parseIncrementalContent ls lastLogSeq with
        | Except.error e => Except.error e
        | Except.ok r =>
          if lastLogSeq < entry.log_seq then
            Except.ok { r with entries := entry :: r.entries }
          else Except.ok r

end LogParser

/-- Model of FileStats from src/client/types/log-entry.ts; the agents Set is
an insertion-ordered list. -/
structure FileStats where
  path : String
  directory : String
  createCount : Nat
  modifyCount : Nat
  totalCount : Nat
  agents : List String
  isChurn : Bool
deriving DecidableEq, Repr

/-- Model of RequirementTrace from src/client/types/log-entry.ts. -/
structure RequirementTrace where
  entry : LogEntry
  phase : String
  action : String
deriving DecidableEq, Repr

namespace Indexer

/-- The six derived lookup structures plus the entry-by-id map, from
src/client/indexer/indexer.ts. -/
structure LogIndices where
  entryMap : List (Nat × LogEntry)
  agentIndex : List (String × List LogEntry)
  phaseIndex : List (String × List LogEntry)
  workSeqIndex : List (String × List LogEntry)
  fileFrequencyMap : List (String × FileStats)
  requirementIndex : List (String × List RequirementTrace)
  parentChildMap : List (Nat × List Nat)
deriving DecidableEq, Repr

/-- The empty index set buildIndices starts from. -/
def emptyIndices : LogIndices :=
  { entryMap := [], agentIndex := [], phaseIndex := [], workSeqIndex := []
    fileFrequencyMap := [], requirementIndex := [], parentChildMap := [] }

/-- Model of the substring-up-to-last-slash directory derivation in
updateFileStats: the characters before the last slash, or none if there is
no slash. -/
def dirChars : List Char → Option (List Char)
  | [] => none
  | c :: cs =>
    match dirChars cs with
    | some d => some (c :: d)
    | none => if c = '/' then some [] else none

/-- Directory of a path: text before the last slash, with the sentinel root
slash when that text is empty or there is no slash at all (the source's
substring-or-default expression). -/
def directoryOf (path : String) : String :=
  match dirChars path.toList with
  | some d => if d = [] then "/" else String.mk d
  | none => "/"

/-- Model of updateFileStats from src/client/indexer/indexer.ts: ensure a
stats record exists for the path, add the agent, bump the create or modify
count, recompute the total and the churn flag. -/
def updateFileStats (m : List (String × FileStats)) (filePath : String)
    (agent : String) (isCreate : Bool) : List (String × FileStats) :=
  let m1 :=
    if m.any (fun p => decide (p.1 = filePath)) then m
    else
      m ++ [(filePath,
        { path := filePath, directory := directoryOf filePath, createCount := 0
          modifyCount := 0, totalCount := 0, agents := [], isChurn := false })]
  m1.map (fun p =>
    if p.1 = filePath then
      let s0 := p.2
      let s1 := { s0 with agents := setAdd s0.agents agent }
      let s2 :=
        if isCreate then { s1 with createCount := s1.createCount + 1 }
        else { s1 with modifyCount := s1.modifyCount + 1 }
      (p.1,
        { s2 with
          totalCount := s2.createCount + s2.modifyCount
          isChurn := decide (0 < s2.createCount ∧ 0 < s2.modifyCount) })
    else p)

/-- Model of the per-event indexing step indexEntry from
src/client/indexer/indexer.ts, applied identically by both the full build
and the incremental update. -/
def indexEntry (idx : LogIndices) (entry : LogEntry) : LogIndices :=
  let entryMap := mapSet idx.entryMap entry.log_seq entry
  let agentIndex := mapPush idx.agentIndex entry.agent entry
  let phaseIndex :=
    if entry.phase = "" then idx.phaseIndex else mapPush idx.phaseIndex entry.phase entry
  let workSeqIndex := mapPush idx.workSeqIndex entry.work_seq entry
  let fileMap1 := entry.files_created.foldl
    (fun m p => updateFileStats m p entry.agent true) idx.fileFrequencyMap
  let fileMap2 := entry.files_modified.foldl
    (fun m p => updateFileStats m p entry.agent false) fileMap1
  let requirementIndex :=
    if entry.requirements = [] then idx.requirementIndex
    else
      (LogParser.expandAllRequirements entry.requirements).foldl
        (fun m reqId =>
          mapPush m reqId { entry := entry, phase := entry.phase, action := entry.action })
        idx.requirementIndex
  let parentChildMap :=
    match entry.parent_log_seq with
    | some p => mapPush idx.parentChildMap p entry.log_seq
    | none => idx.parentChildMap
  { entryMap := entryMap, agentIndex := agentIndex, phaseIndex := phaseIndex
    workSeqIndex := workSeqIndex, fileFrequencyMap := fileMap2
    requirementIndex := requirementIndex, parentChildMap := parentChildMap }

/-- Model of buildIndices from src/client/indexer/indexer.ts: index every
entry in input order starting from empty structures. -/
def buildIndices (entries : List LogEntry) : LogIndices :=
  entries.foldl indexEntry emptyIndices

/-- Model of updateIndicesIncremental from src/client/indexer/indexer.ts:
apply the identical per-event step to the new entries, in order, against the
existing structures (the in-place mutation is modelled by returning the
extended value). -/
def updateIndicesIncremental (indices : LogIndices) (newEntries : List LogEntry) : LogIndices :=
  newEntries.foldl indexEntry indices

end Indexer

namespace Constants

/-- Canonical workflow phase order from src/client/config/constants.ts. -/
def CANONICAL_PHASE_ORDER : List String :=
  ["requirements", "architecture", "design", "planning", "implementation",
   "review", "testing", "documentation", "deployment"]

/-- Position of a phase in the canonical order, none when unknown (the
indexOf-returns-minus-one case in the source). -/
def phaseIdx (p : String) : Option Nat :=
  CANONICAL_PHASE_ORDER.findIdx? (fun q => decide (q = p))

/-- The sort comparator of sortPhases as a boolean precedes-or-ties relation:
known phases by canonical position, known before unknown, unknown phases by
string order (modelling localeCompare as code-point order). -/
def phaseLe (a b : String) : Bool :=
  match phaseIdx a, phaseIdx b with
  | some i, some j => decide (i ≤ j)
  | some _, none => true
  | none, some _ => false
  | none, none => decide (a ≤ b)

/-- Stable insertion of a phase name into an already sorted list. -/
def insertPhase (a : String) : List String → List String
  | [] => [a]
  | b :: bs => if phaseLe a b then a :: b :: bs else b :: insertPhase a bs

/-- Model of sortPhases from src/client/config/constants.ts: a stable sort by
the canonical-order comparator. -/
def sortPhases (phases : List String) : List String :=
  phases.foldr insertPhase []

end Constants

namespace Timeline

/-- Terminal action set from src/client/components/views/TimelineView/pairEntries.ts. -/
def TERMINAL_ACTIONS : List String :=
  ["COMPLETE", "REVIEW_PASS", "TEST_PASS", "REVIEW_FAIL", "TEST_FAIL", "ERROR"]

/-- Success terminal actions (green bars). -/
def SUCCESS_TERMINALS : List String := ["COMPLETE", "REVIEW_PASS", "TEST_PASS"]

/-- Failure terminal actions (red bars). -/
def FAILURE_TERMINALS : List String := ["REVIEW_FAIL", "TEST_FAIL", "ERROR"]

/-- Marker action set (non-START, non-terminal). -/
def MARKER_ACTIONS : List String :=
  ["DECISION", "FILE_CREATE", "FILE_MODIFY", "BLOCKED", "UNBLOCKED"]

/-- A paired START-to-terminal duration bar; the outcome string is either
success or failure. -/
structure DurationBar where
  startEntry : LogEntry
  endEntry : LogEntry
  outcome : String
deriving DecidableEq, Repr

/-- A START entry with no matching terminal. -/
structure OrphanStart where
  entry : LogEntry
deriving DecidableEq, Repr

/-- A non-START, non-terminal event, optionally attributed to a bar. -/
structure MarkerEvent where
  entry : LogEntry
  parentBar : Option DurationBar
deriving DecidableEq, Repr

/-- Complete result of pairing all entries. -/
structure PairingResult where
  bars : List DurationBar
  orphans : List OrphanStart
  markers : List MarkerEvent
deriving DecidableEq, Repr

/-- JavaScript truthiness of the nullable task_id string: true exactly when it
is present and non-empty (the source guards the primary match with a bare
truthiness test on start.task_id). -/
def taskIdTruthy (e : LogEntry) : Bool :=
  match e.task_id with
  | some t => decide (t ≠ "")
  | none => false

/-- The matching step of the source's per-START loop: scan the agent's
terminals, in arrival order, for the first unconsumed primary match (same
task_id, later log_seq; only when the START's task_id is truthy), then for
the first unconsumed secondary match (same phase, same parent_log_seq, later
log_seq). -/
def findMatch (agentTerminals : List LogEntry) (consumed : List Nat)
    (s : LogEntry) : Option LogEntry :=
  let primary :=
    if taskIdTruthy s then
      agentTerminals.find? (fun t =>
        decide (t.log_seq ∉ consumed ∧ t.task_id = s.task_id ∧ s.log_seq < t.log_seq))
    else none
  match primary with
  | some t => some t
  | none =>
    agentTerminals.find? (fun t =>
      decide (t.log_seq ∉ consumed ∧ t.phase = s.phase ∧
        t.parent_log_seq = s.parent_log_seq ∧ s.log_seq < t.log_seq))

/-- The source's step-3 loop over STARTs: each START either claims its matched
terminal (consuming its log_seq) and produces a bar, or becomes an orphan.
The terminals-by-agent Map lookup is modelled by filtering the terminal list
on the agent, which preserves arrival order exactly as the grouping does. -/
def pairLoop (terminals : List LogEntry) (consumed : List Nat) :
    List LogEntry → List DurationBar × List OrphanStart
  | [] => ([], [])
  | s :: rest =>
    match findMatch (terminals.filter (fun t => decide (t.agent = s.agent))) consumed s with
    | some t =>
      let r := pairLoop terminals (t.log_seq :: consumed) rest
      ({ startEntry := s, endEntry := t
         outcome := if SUCCESS_TERMINALS.contains t.action then "success" else "failure" } :: r.1,
       r.2)
    | none =>
      let r := pairLoop terminals consumed rest
      (r.1, { entry := s } :: r.2)

/-- The source's step-4 marker attribution: the first bar of the same agent
whose timestamp interval contains the marker's timestamp. The Date-parse of
an ISO string to epoch milliseconds is an external platform function and is
abstracted as the getTime parameter. -/
def markerParentBar (getTime : String → Int) (bars : List DurationBar)
    (m : LogEntry) : Option DurationBar :=
  bars.find? (fun bar =>
    decide (bar.startEntry.agent = m.agent) &&
    decide (getTime bar.startEntry.timestamp ≤ getTime m.timestamp) &&
    decide (getTime m.timestamp ≤ getTime bar.endEntry.timestamp))

/-- Model of pairEntries from
src/client/components/views/TimelineView/pairEntries.ts: classify entries by
action role (the if/else-if chain of step 1), pair STARTs with terminals,
and attribute markers to bars. -/
def pairEntries (getTime : String → Int) (entries : List LogEntry) : PairingResult :=
  let starts := entries.filter (fun e => decide (e.action = "START"))
  let terminals := entries.filter (fun e =>
    !decide (e.action = "START") && TERMINAL_ACTIONS.contains e.action)
  let markerEntries := entries.filter (fun e =>
    !decide (e.action = "START") && !TERMINAL_ACTIONS.contains e.action &&
      MARKER_ACTIONS.contains e.action)
  let r := pairLoop terminals [] starts
  { bars := r.1, orphans := r.2
    markers := markerEntries.map (fun m =>
      { entry := m, parentBar := markerParentBar getTime r.1 m }) }

/-- The claim's statement of the primary match rule, written from the spec's
words: the first not-yet-consumed terminal of the same agent, in arrival
order over all terminals, with equal task_id and strictly greater log_seq. -/
def specPrimaryPick (terminals : List LogEntry) (consumed : List Nat)
    (s : LogEntry) : Option LogEntry :=
  terminals.find? (fun t =>
    decide (t.agent = s.agent ∧ t.log_seq ∉ consumed ∧ t.task_id = s.task_id ∧
      s.log_seq < t.log_seq))

/-- The claim's statement of the secondary match rule, written from the spec's
words: the first not-yet-consumed same-agent terminal with equal phase, equal
parent_log_seq and strictly greater log_seq. -/
def specSecondaryPick (terminals : List LogEntry) (consumed : List Nat)
    (s : LogEntry) : Option LogEntry :=
  terminals.find? (fun t =>
    decide (t.agent = s.agent ∧ t.log_seq ∉ consumed ∧ t.phase = s.phase ∧
      t.parent_log_seq = s.parent_log_seq ∧ s.log_seq < t.log_seq))

/-- The claim's match rule as amended: the primary rule is attempted exactly
when the START's task_id is present AND non-empty (JavaScript truthiness),
falling back to the secondary rule, else no match. -/
def specMatch (terminals : List LogEntry) (consumed : List Nat)
    (s : LogEntry) : Option LogEntry :=
  match (if taskIdTruthy s then specPrimaryPick terminals consumed s else none) with
  | some t => some t
  | none => specSecondaryPick terminals consumed s

/-- The claim's processing discipline, written from the spec's words: STARTs
in input order, each either claiming its matched terminal (which is then
consumed) or becoming an orphan. -/
def specPairLoop (terminals : List LogEntry) (consumed : List Nat) :
    List LogEntry → List DurationBar × List OrphanStart
  | [] => ([], [])
  | s :: rest =>
    match specMatch terminals consumed s with
    | some t =>
      let r := specPairLoop terminals (t.log_seq :: consumed) rest
      ({ startEntry := s, endEntry := t
         outcome := if SUCCESS_TERMINALS.contains t.action then "success" else "failure" } :: r.1,
       r.2)
    | none =>
      let r := specPairLoop terminals consumed rest
      (r.1, { entry := s } :: r.2)

end Timeline

namespace Dashboard

/-- Per-phase statistics record from
src/client/components/views/DashboardView/DashboardView.tsx. -/
structure PhaseStats where
  name : String
  total : Nat
  completed : Nat
  inProgress : Nat
  failures : Nat
  errors : Nat
  percentage : Nat
deriving DecidableEq, Repr

/-- The DashboardView's success terminal set (named TERMINAL_ACTIONS there). -/
def DONE_ACTIONS : List String := ["COMPLETE", "REVIEW_PASS", "TEST_PASS"]

/-- The DashboardView's failure action set. -/
def FAILURE_ACTIONS : List String := ["REVIEW_FAIL", "TEST_FAIL", "ERROR"]

/-- The work-unit grouping key: agent, a pipe, then the task_id when present
(nullish coalescing) or the entry's own log_seq rendered in decimal. -/
def unitKey (e : LogEntry) : String :=
  e.agent ++ "|" ++ (match e.task_id with | some t => t | none => toString e.log_seq)

/-- Grouping of the phase's entries by phase name: the source's first loop,
skipping entries with an empty phase. -/
def phaseGroups (entries : List LogEntry) : List (String × List LogEntry) :=
  entries.foldl (fun m e => if e.phase = "" then m else mapPush m e.phase e) []

/-- Grouping of one phase's entries into work units by key. -/
def workUnits (phaseEntries : List LogEntry) : List (String × List LogEntry) :=
  phaseEntries.foldl (fun m e => mapPush m (unitKey e) e) []

/-- Latest entry of a work unit by log_seq: the source's reduce over the
unit's entries. None only on an empty list, which grouping never produces. -/
def latestEntry : List LogEntry → Option LogEntry
  | [] => none
  | e :: es => some (es.foldl (fun p c => if p.log_seq < c.log_seq then c else p) e)

/-- Whether a work unit has at least one START entry. -/
def hasStart (u : List LogEntry) : Bool := u.any (fun e => decide (e.action = "START"))

/-- Whether a work unit's latest entry by log_seq carries a success-terminal
action. -/
def latestIsDone (u : List LogEntry) : Bool :=
  match latestEntry u with
  | some e => DONE_ACTIONS.contains e.action
  | none => false

/-- Whether a work unit's latest entry by log_seq carries a failure-terminal
action. -/
def latestIsFailure (u : List LogEntry) : Bool :=
  match latestEntry u with
  | some e => FAILURE_ACTIONS.contains e.action
  | none => false

/-- The per-work-unit accumulation step over (total, completed, failures): a
unit with no START is skipped; otherwise total is incremented and the unit's
latest action classifies it as completed, failed, or in progress. -/
def unitStep (acc : Nat × Nat × Nat) (u : List LogEntry) : Nat × Nat × Nat :=
  if hasStart u then
    match latestEntry u with
    | none => acc
    | some latest =>
      if DONE_ACTIONS.contains latest.action then (acc.1 + 1, acc.2.1 + 1, acc.2.2)
      else if FAILURE_ACTIONS.contains latest.action then (acc.1 + 1, acc.2.1, acc.2.2 + 1)
      else (acc.1 + 1, acc.2.1, acc.2.2)
  else acc

/-- Rounding half up of the rational num / den, as Math.round does for
non-negative values (the float evaluation of the source is idealised to
exact rational rounding). -/
def jsRound (num den : Nat) : Nat := (2 * num + den) / (2 * den)

/-- The statistics record the source builds for one phase name from its
entries: work-unit grouping, the counting loop, a floored-at-zero inProgress
and a percentage clamped to 100. -/
def statsForPhase (name : String) (phaseEntries : List LogEntry) : PhaseStats :=
  let units := (workUnits phaseEntries).map (fun p => p.2)
  let c := units.foldl unitStep (0, 0, 0)
  let total := c.1
  let completed := c.2.1
  let failures := c.2.2
  { name := name, total := total, completed := completed
    inProgress := total - completed - failures
    failures := failures, errors := 0
    percentage := if 0 < total then min 100 (jsRound (completed * 100) total) else 0 }

/-- Model of computePhaseStats from
src/client/components/views/DashboardView/DashboardView.tsx: group entries
by non-empty phase, sort the phase names canonically, and build one
statistics record per phase. -/
def computePhaseStats (entries : List LogEntry) : List PhaseStats :=
  let groups := phaseGroups entries
  (Constants.sortPhases (groups.map (fun p => p.1))).map
    (fun name => statsForPhase name ((mapGet groups name).getD []))

end Dashboard

namespace Watcher

/-- The live-tail polling limit from src/client/config/constants.ts. -/
def LIVE_TAIL_MAX_FAILURES : Nat := 3

/-- Outcome of one poll attempt: the re-read either yields content or fails
(a thrown error or a null file handle). -/
inductive PollOutcome where
  | success
  | failure
deriving DecidableEq, Repr

/-- The callbacks the watcher reports through. -/
inductive WatcherCallback where
  | onNewContent
  | onError (consecutiveFailures : Nat)
  | onDisabled
deriving DecidableEq, Repr

/-- Observable state of the FileWatcher from
src/client/services/file-watcher.ts. The source keeps the interval handle
set exactly while the private active flag is true, so one flag models both. -/
structure WatcherState where
  consecutiveFailures : Nat
  isActive : Bool
deriving DecidableEq, Repr

/-- Model of FileWatcher.poll: success resets the consecutive-failure counter
and reports the content; failure increments it, reports the error, and on
reaching the limit stops the watcher and reports the disable transition. -/
def pollStep (s : WatcherState) : PollOutcome → WatcherState × List WatcherCallback
  | PollOutcome.success =>
    ({ s with consecutiveFailures := 0 }, [WatcherCallback.onNewContent])
  | PollOutcome.failure =>
    let n := s.consecutiveFailures + 1
    if LIVE_TAIL_MAX_FAILURES ≤ n then
      ({ consecutiveFailures := n, isActive := false },
       [WatcherCallback.onError n, WatcherCallback.onDisabled])
    else
      ({ s with consecutiveFailures := n }, [WatcherCallback.onError n])

/-- Model of FileWatcher.start: the failure counter is cleared, the watcher
becomes active and its interval timer is installed. -/
def startWatcher : WatcherState := { consecutiveFailures := 0, isActive := true }

/-- Model of FileWatcher.stop: the interval timer is cleared and the watcher
becomes inactive. -/
def stopWatcher (s : WatcherState) : WatcherState := { s with isActive := false }

/-- One automatic timer tick: the interval callback runs poll only while the
timer is installed, so an inactive (stopped or disabled) watcher performs no
automatic polling at all. -/
def tickStep (s : WatcherState) (o : PollOutcome) : WatcherState × List WatcherCallback :=
  if s.isActive then pollStep s o else (s, [])

end Watcher

/-- A START entry whose task_id is present but empty: non-null, yet falsy in
JavaScript, so the source skips the primary match for it. -/
def emptyTaskStart : LogEntry :=
  { log_seq := 1, work_seq := "001", timestamp := "2026-01-01T00:00:00Z"
    agent := "developer", action := "START", phase := "implementation"
    parent_log_seq := none, requirements := [], task_id := some ""
    details := "", files_created := [], files_modified := [], decisions := []
    errors := [], duration_ms := none }

/-- A later terminal for the same agent with the same (empty but non-null)
task_id and a different phase: a primary match under the claim's non-null
reading, but not matched by the source. -/
def emptyTaskTerminal : LogEntry :=
  { log_seq := 2, work_seq := "001", timestamp := "2026-01-01T00:10:00Z"
    agent := "developer", action := "COMPLETE", phase := "review"
    parent_log_seq := none, requirements := [], task_id := some ""
    details := "", files_created := [], files_modified := [], decisions := []
    errors := [], duration_ms := none }

/-- A simple started work unit used to instantiate the phase-statistics
theorems at a concrete input. -/
def sampleEntry : LogEntry :=
  { log_seq := 1, work_seq := "001", timestamp := "2026-01-01T00:00:00Z"
    agent := "developer", action := "START", phase := "implementation"
    parent_log_seq := none, requirements := [], task_id := some "T001"
    details := "", files_created := [], files_modified := [], decisions := []
    errors := [], duration_ms := none }

/-- The event a raw line contributes when its parse succeeds with a value
(and nothing when it is skipped or throws). -/
def parsedEvent (l : LogParser.RawLine) : Option LogEntry :=
  match LogParser.parseLine l with
  | Except.ok (some e) => some e
  | _ => none

/-- A record carrying exactly the four required fields, like the minimal
valid line of the parser's test suite. -/
def minimalRecord : LogParser.RawRecord :=
  { log_seq := some 2, work_seq := none, timestamp := some "2026-02-05T00:01:00Z"
    agent := some "developer", action := some "COMPLETE", phase := none
    parent_log_seq := none, requirements := none, task_id := none
    details := none, files_created := none, files_modified := none
    decisions := none, errors := none, duration_ms := none }

/-! Theorems. -/

/-- C1: Incremental index equivalence — for every event list split into a
prefix A followed by B, building the indices from A and then extending them
incrementally with B yields structures equal, across the entry-by-id, agent,
phase, work-seq, file-statistics, requirement and parent-children maps, to
building the indices from A ++ B in one pass. -/
theorem buildIndices_incremental_equiv (A B : List LogEntry) :
    Indexer.updateIndicesIncremental (Indexer.buildIndices A) B =
      Indexer.buildIndices (A ++ B) := by
  simp [Indexer.buildIndices, Indexer.updateIndicesIncremental, List.foldl_append]

/-- C9: Polling auto-disable — a successful poll resets the consecutive
failure counter to zero; from an active watcher with a clear counter, three
consecutive failed polls leave it active after the first two and disabled
(inactive, with onDisabled reported) after the third; an inactive watcher
performs no automatic polling on a timer tick; an explicit restart returns
the watcher to the active state with a clear counter. -/
theorem watcher_auto_disable :
    (∀ s : Watcher.WatcherState,
      (Watcher.pollStep s Watcher.PollOutcome.success).1.consecutiveFailures = 0) ∧
    (∀ s : Watcher.WatcherState, s.isActive = true → s.consecutiveFailures = 0 →
      (Watcher.pollStep s Watcher.PollOutcome.failure).1.isActive = true ∧
      (Watcher.pollStep (Watcher.pollStep s Watcher.PollOutcome.failure).1
          Watcher.PollOutcome.failure).1.isActive = true ∧
      (Watcher.pollStep (Watcher.pollStep (Watcher.pollStep s
          Watcher.PollOutcome.failure).1 Watcher.PollOutcome.failure).1
          Watcher.PollOutcome.failure).1.isActive = false ∧
      Watcher.WatcherCallback.onDisabled ∈
        (Watcher.pollStep (Watcher.pollStep (Watcher.pollStep s
            Watcher.PollOutcome.failure).1 Watcher.PollOutcome.failure).1
            Watcher.PollOutcome.failure).2) ∧
    (∀ (s : Watcher.WatcherState) (o : Watcher.PollOutcome), s.isActive = false →
      Watcher.tickStep s o = (s, [])) ∧
    (Watcher.startWatcher.isActive = true ∧
      Watcher.startWatcher.consecutiveFailures = 0) := by
  refine ⟨fun s => rfl, fun s h1 h2 => ?_, fun s o h => ?_, rfl, rfl⟩
  · simp [Watcher.pollStep, Watcher.LIVE_TAIL_MAX_FAILURES, h1, h2]
  · simp [Watcher.tickStep, h]

/-- Witness for C9 at the freshly started watcher state. -/
theorem watcher_auto_disable_witness :
    (Watcher.pollStep Watcher.startWatcher Watcher.PollOutcome.failure).1.isActive = true ∧
    (Watcher.pollStep (Watcher.pollStep Watcher.startWatcher
        Watcher.PollOutcome.failure).1 Watcher.PollOutcome.failure).1.isActive = true ∧
    (Watcher.pollStep (Watcher.pollStep (Watcher.pollStep Watcher.startWatcher
        Watcher.PollOutcome.failure).1 Watcher.PollOutcome.failure).1
        Watcher.PollOutcome.failure).1.isActive = false ∧
    Watcher.WatcherCallback.onDisabled ∈
      (Watcher.pollStep (Watcher.pollStep (Watcher.pollStep Watcher.startWatcher
          Watcher.PollOutcome.failure).1 Watcher.PollOutcome.failure).1
          Watcher.PollOutcome.failure).2 :=
  watcher_auto_disable.2.1 Watcher.startWatcher rfl rfl

/-- A terminal returned by the matching step is one of the agent's terminals
and is not yet consumed. -/
theorem findMatch_spec {ts : List LogEntry} {consumed : List Nat} {s t : LogEntry}
    (h : Timeline.findMatch ts consumed s = some t) :
    t ∈ ts ∧ t.log_seq ∉ consumed := by
  unfold Timeline.findMatch at h
  by_cases ht : Timeline.taskIdTruthy s = true
  · simp only [ht, if_true] at h
    cases hf : ts.find? (fun t =>
        decide (t.log_seq ∉ consumed ∧ t.task_id = s.task_id ∧ s.log_seq < t.log_seq)) with
    | some u =>
      rw [hf] at h
      have h2 : some u = some t := h
      have hut : u = t := Option.some.injEq u t ▸ h2
      subst hut
      have hp := List.find?_some hf
      simp only [decide_eq_true_eq] at hp
      exact ⟨List.mem_of_find?_eq_some hf, hp.1⟩
    | none =>
      rw [hf] at h
      have h2 : ts.find? (fun t =>
          decide (t.log_seq ∉ consumed ∧ t.phase = s.phase ∧
            t.parent_log_seq = s.parent_log_seq ∧ s.log_seq < t.log_seq)) = some t := h
      have hp := List.find?_some h2
      simp only [decide_eq_true_eq] at hp
      exact ⟨List.mem_of_find?_eq_some h2, hp.1⟩
  · simp only [Bool.not_eq_true] at ht
    simp only [ht, Bool.false_eq_true, if_false] at h
    have h2 : ts.find? (fun t =>
        decide (t.log_seq ∉ consumed ∧ t.phase = s.phase ∧
          t.parent_log_seq = s.parent_log_seq ∧ s.log_seq < t.log_seq)) = some t := h
    have hp := List.find?_some h2
    simp only [decide_eq_true_eq] at hp
    exact ⟨List.mem_of_find?_eq_some h2, hp.1⟩

/-- The pairing loop sends each processed START to exactly one of the bar list
(as its startEntry) and the orphan list, preserving multiplicities. -/
theorem pairLoop_perm (terminals : List LogEntry) (starts : List LogEntry) :
    ∀ consumed : List Nat,
      ((Timeline.pairLoop terminals consumed starts).1.map (fun b => b.startEntry) ++
        (Timeline.pairLoop terminals consumed starts).2.map (fun o => o.entry)).Perm
        starts := by
  induction starts with
  | nil => intro consumed; simp [Timeline.pairLoop]
  | cons s rest ih =>
    intro consumed
    cases hm : Timeline.findMatch
        (terminals.filter (fun t => decide (t.agent = s.agent))) consumed s with
    | some t =>
      simp only [Timeline.pairLoop, hm, List.map_cons, List.cons_append]
      exact List.Perm.cons s (ih _)
    | none =>
      simp only [Timeline.pairLoop, hm, List.map_cons]
      exact List.perm_middle.trans (List.Perm.cons s (ih _))

/-- Along the pairing loop, the matched terminals' log_seq values are pairwise
distinct, never taken from the consumed set, and each bar's terminal is one
of the agent-filtered terminal entries. -/
theorem pairLoop_ends (terminals : List LogEntry) (starts : List LogEntry) :
    ∀ consumed : List Nat,
      ((Timeline.pairLoop terminals consumed starts).1.map
        (fun b => b.endEntry.log_seq)).Nodup ∧
      ∀ b ∈ (Timeline.pairLoop terminals consumed starts).1,
        b.endEntry.log_seq ∉ consumed ∧ b.endEntry ∈ terminals := by
  induction starts with
  | nil => intro consumed; simp [Timeline.pairLoop]
  | cons s rest ih =>
    intro consumed
    cases hm : Timeline.findMatch
        (terminals.filter (fun t => decide (t.agent = s.agent))) consumed s with
    | some t =>
      obtain ⟨hmem, hnc⟩ := findMatch_spec hm
      have htm : t ∈ terminals := List.mem_of_mem_filter hmem
      obtain ⟨ih1, ih2⟩ := ih (t.log_seq :: consumed)
      simp only [Timeline.pairLoop, hm]
      refine ⟨List.nodup_cons.mpr ⟨?_, ih1⟩, ?_⟩
      · intro hc
        obtain ⟨b, hb, he⟩ := List.mem_map.mp hc
        exact (ih2 b hb).1 (by rw [he]; exact List.mem_cons_self _ _)
      · intro b hb
        rcases List.mem_cons.mp hb with hb | hb
        · subst hb; exact ⟨hnc, htm⟩
        · exact ⟨fun hx => (ih2 b hb).1 (List.mem_cons_of_mem _ hx), (ih2 b hb).2⟩
    | none =>
      simp only [Timeline.pairLoop, hm]
      exact ih consumed

/-- In a bar list whose terminal log_seq values are pairwise distinct, any
fixed entry occurs as the endEntry of at most one bar. -/
theorem countP_endEntry_le_one (bars : List Timeline.DurationBar)
    (h : (bars.map (fun b => b.endEntry.log_seq)).Nodup) (t : LogEntry) :
    bars.countP (fun b => decide (b.endEntry = t)) ≤ 1 := by
  induction bars with
  | nil => simp
  | cons b bs ih =>
    obtain ⟨hb, hbs⟩ := List.nodup_cons.mp h
    by_cases he : b.endEntry = t
    · have hzero : bs.countP (fun b => decide (b.endEntry = t)) = 0 := by
        rw [List.countP_eq_zero]
        intro b' hb' hbt
        have he' : b'.endEntry = t := of_decide_eq_true hbt
        exact hb (List.mem_map.mpr ⟨b', hb', by rw [he', ← he]⟩)
      simp [List.countP_cons, he, hzero]
    · simpa [List.countP_cons, he] using ih hbs

/-- C2: Pairing conservation — for every input event list, every fixed entry
appears as the endEntry of at most one produced bar, every bar's terminal is
one of the input's terminal events not yet claimed by an earlier START, and
the bars' startEntry list together with the orphans' entry list is a
permutation of the input's START events: every START appears in exactly one
of the two. -/
theorem pairEntries_conservation (getTime : String → Int) (entries : List LogEntry) :
    (∀ t : LogEntry,
      (Timeline.pairEntries getTime entries).bars.countP
        (fun b => decide (b.endEntry = t)) ≤ 1) ∧
    ((Timeline.pairEntries getTime entries).bars.all
      (fun b => Timeline.TERMINAL_ACTIONS.contains b.endEntry.action) = true) ∧
    (((Timeline.pairEntries getTime entries).bars.map (fun b => b.startEntry) ++
        (Timeline.pairEntries getTime entries).orphans.map (fun o => o.entry)).Perm
      (entries.filter (fun e => decide (e.action = "START")))) := by
  have hends := pairLoop_ends
    (entries.filter (fun e =>
      !decide (e.action = "START") && Timeline.TERMINAL_ACTIONS.contains e.action))
    (entries.filter (fun e => decide (e.action = "START"))) []
  refine ⟨?_, ?_, ?_⟩
  · intro t
    exact countP_endEntry_le_one _ hends.1 t
  · rw [List.all_eq_true]
    intro b hb
    have hmem := (hends.2 b hb).2
    have := List.mem_filter.mp hmem
    exact Bool.and_elim_right this.2
  · exact pairLoop_perm _ _ []

/-- Searching a filtered list is searching the whole list with the conjoined
predicate. -/
theorem find?_filter_eq {α : Type} (l : List α) (f g : α → Bool) :
    (l.filter f).find? g = l.find? (fun a => f a && g a) := by
  induction l with
  | nil => rfl
  | cons a l ih =>
    by_cases hf : f a = true
    · by_cases hg : g a = true
      · simp [List.filter_cons, hf, List.find?_cons, hg]
      · simp only [Bool.not_eq_true] at hg
        simp [List.filter_cons, hf, List.find?_cons, hg, ih]
    · simp only [Bool.not_eq_true] at hf
      simp [List.filter_cons, hf, List.find?_cons, ih]

/-- The claim's match rule (amended to JavaScript truthiness) computes the
same match as the source's agent-grouped search. -/
theorem specMatch_eq_findMatch (terminals : List LogEntry) (consumed : List Nat)
    (s : LogEntry) :
    Timeline.specMatch terminals consumed s =
      Timeline.findMatch (terminals.filter (fun t => decide (t.agent = s.agent)))
        consumed s := by
  unfold Timeline.specMatch Timeline.findMatch Timeline.specPrimaryPick
    Timeline.specSecondaryPick
  have e1 : (terminals.filter (fun t => decide (t.agent = s.agent))).find?
      (fun t => decide (t.log_seq ∉ consumed ∧ t.task_id = s.task_id ∧
        s.log_seq < t.log_seq)) =
      terminals.find? (fun t => decide (t.agent = s.agent ∧ t.log_seq ∉ consumed ∧
        t.task_id = s.task_id ∧ s.log_seq < t.log_seq)) := by
    rw [find?_filter_eq]
    congr 1
    funext t
    simp [Bool.decide_and]
  have e2 : (terminals.filter (fun t => decide (t.agent = s.agent))).find?
      (fun t => decide (t.log_seq ∉ consumed ∧ t.phase = s.phase ∧
        t.parent_log_seq = s.parent_log_seq ∧ s.log_seq < t.log_seq)) =
      terminals.find? (fun t => decide (t.agent = s.agent ∧ t.log_seq ∉ consumed ∧
        t.phase = s.phase ∧ t.parent_log_seq = s.parent_log_seq ∧
        s.log_seq < t.log_seq)) := by
    rw [find?_filter_eq]
    congr 1
    funext t
    simp [Bool.decide_and]
  rw [e1, e2]

/-- The claim's processing loop and the source's pairing loop agree on every
START list and consumed set. -/
theorem specPairLoop_eq_pairLoop (terminals : List LogEntry) (starts : List LogEntry) :
    ∀ consumed : List Nat,
      Timeline.specPairLoop terminals consumed starts =
        Timeline.pairLoop terminals consumed starts := by
  induction starts with
  | nil => intro consumed; rfl
  | cons s rest ih =>
    intro consumed
    simp only [Timeline.specPairLoop, Timeline.pairLoop,
      specMatch_eq_findMatch terminals consumed s]
    cases Timeline.findMatch
        (terminals.filter (fun t => decide (t.agent = s.agent))) consumed s with
    | some t => simp [ih]
    | none => simp [ih]

/-- C3 (amended): Pairing match rule — for every input, processing STARTs in
input order, a START whose task_id is present and non-empty (JavaScript
truthiness of the source's guard, amending the claim's bare non-null
condition) is matched to the first not-yet-consumed same-agent terminal with
equal task_id and strictly greater log_seq; if that fails, or the task_id is
absent or empty, to the first not-yet-consumed same-agent terminal with
equal phase, equal parent_log_seq and strictly greater log_seq; and when
neither exists the START becomes an orphan. -/
theorem pairEntries_match_rule (getTime : String → Int) (entries : List LogEntry) :
    (Timeline.pairEntries getTime entries).bars =
      (Timeline.specPairLoop
        (entries.filter (fun e =>
          !decide (e.action = "START") && Timeline.TERMINAL_ACTIONS.contains e.action))
        [] (entries.filter (fun e => decide (e.action = "START")))).1 ∧
    (Timeline.pairEntries getTime entries).orphans =
      (Timeline.specPairLoop
        (entries.filter (fun e =>
          !decide (e.action = "START") && Timeline.TERMINAL_ACTIONS.contains e.action))
        [] (entries.filter (fun e => decide (e.action = "START")))).2 := by
  rw [specPairLoop_eq_pairLoop]
  exact ⟨rfl, rfl⟩

/-- C3 counterexample: the claim as stated fails on the code. This START has
a non-null task_id (the empty string) and the input holds an unconsumed
later terminal of the same agent with the same task_id, so by the claim's
primary rule the pair should form a bar; the source instead tests JavaScript
truthiness, skips the primary match, fails the secondary match on the
differing phase, and emits the START as an orphan. -/
theorem pairEntries_match_rule_counterexample :
    emptyTaskStart.task_id ≠ none ∧
    emptyTaskTerminal.agent = emptyTaskStart.agent ∧
    emptyTaskTerminal.task_id = emptyTaskStart.task_id ∧
    emptyTaskStart.log_seq < emptyTaskTerminal.log_seq ∧
    Timeline.TERMINAL_ACTIONS.contains emptyTaskTerminal.action = true ∧
    (Timeline.pairEntries (fun _ => 0) [emptyTaskStart, emptyTaskTerminal]).bars = [] ∧
    (Timeline.pairEntries (fun _ => 0) [emptyTaskStart, emptyTaskTerminal]).orphans =
      [{ entry := emptyTaskStart }] := by
  refine ⟨by simp [emptyTaskStart], rfl, rfl, by decide, by decide, ?_, ?_⟩ <;> rfl

/-- Lookup after a push: the pushed key's list gains the value at its end,
every other key is untouched. -/
theorem mapGet_mapPush {K V : Type} [DecidableEq K] (m : List (K × List V))
    (k k' : K) (v : V) :
    mapGet (mapPush m k v) k' =
      if k' = k then some ((mapGet m k).getD [] ++ [v]) else mapGet m k' := by
  by_cases hany : m.any (fun p => decide (p.1 = k)) = true
  · have hcomp : ((fun p : K × List V => decide (p.1 = k')) ∘
        (fun p : K × List V => if p.1 = k then (p.1, p.2 ++ [v]) else p)) =
        fun p : K × List V => decide (p.1 = k') := by
      funext p
      simp only [Function.comp]
      congr 1
      split <;> rfl
    rw [mapPush, if_pos hany, mapGet, List.find?_map, hcomp]
    by_cases hk : k' = k
    · subst hk
      obtain ⟨p0, hp0m, hp0⟩ := List.any_eq_true.mp hany
      have hsome : (m.find? (fun p => decide (p.1 = k'))).isSome := by
        rw [List.find?_isSome]
        exact ⟨p0, hp0m, hp0⟩
      obtain ⟨p1, hp1⟩ := Option.isSome_iff_exists.mp hsome
      have hkey : p1.1 = k' := by
        have := List.find?_some hp1
        simpa using this
      rw [hp1, mapGet, hp1]
      simp [hkey]
    · rw [if_neg hk, mapGet]
      cases hf : m.find? (fun p => decide (p.1 = k')) with
      | none => simp
      | some p1 =>
        have hkey : p1.1 = k' := by
          have := List.find?_some hf
          simpa using this
        have hne : ¬ p1.1 = k := by rw [hkey]; exact hk
        simp [hne]
  · simp only [Bool.not_eq_true] at hany
    have hnone : m.find? (fun p => decide (p.1 = k)) = none := by
      rw [List.find?_eq_none]
      intro p hp
      have := List.any_eq_false.mp hany p hp
      simpa using this
    rw [mapPush, if_neg (by simp [hany]), mapGet, List.find?_append]
    by_cases hk : k' = k
    · subst hk
      rw [hnone]
      simp [mapGet, hnone, List.find?_cons]
    · have hne : ¬ k = k' := fun h => hk h.symm
      have h2 : ([(k, [v])].find? (fun p => decide (p.1 = k'))) = none := by
        simp [List.find?_cons, hne]
      rw [h2, if_neg hk, mapGet]
      cases m.find? (fun p => decide (p.1 = k')) <;> rfl

/-- Folding pushes over a list groups it: looking up a key in the result
yields the initial map's list extended by exactly the elements carrying that
key, in order. -/
theorem mapGet_groupFold {α K : Type} [DecidableEq K] (key : α → K) (l : List α) :
    ∀ (m : List (K × List α)) (k : K),
      mapGet (l.foldl (fun m e => mapPush m (key e) e) m) k =
        match mapGet m k with
        | some vs => some (vs ++ l.filter (fun e => decide (key e = k)))
        | none =>
          if l.any (fun e => decide (key e = k)) then
            some (l.filter (fun e => decide (key e = k)))
          else none := by
  induction l with
  | nil => intro m k; cases hm : mapGet m k <;> simp [hm]
  | cons e l ih =>
    intro m k
    rw [List.foldl_cons, ih (mapPush m (key e) e) k, mapGet_mapPush]
    by_cases hk : k = key e
    · have hk' : key e = k := hk.symm
      rw [if_pos hk, hk']
      cases hm : mapGet m k with
      | some vs => simp [List.filter_cons, hk', hm]
      | none => simp [List.filter_cons, List.any_cons, hk', hm]
    · have hk' : ¬ key e = k := fun h => hk h.symm
      rw [if_neg hk]
      cases hm : mapGet m k with
      | some vs => simp [List.filter_cons, hk', hm]
      | none => simp [List.filter_cons, List.any_cons, hk', hm]

/-- The source's skip-empty-phase grouping loop equals grouping the entries
with a non-empty phase. -/
theorem phaseGroups_eq_groupFold (entries : List LogEntry) :
    Dashboard.phaseGroups entries =
      (entries.filter (fun e => !decide (e.phase = ""))).foldl
        (fun m e => mapPush m e.phase e) [] := by
  rw [Dashboard.phaseGroups]
  generalize ([] : List (String × List LogEntry)) = m
  induction entries generalizing m with
  | nil => rfl
  | cons e l ih =>
    by_cases he : e.phase = "" <;> simp [List.filter_cons, he, ih]

/-- A key present in an association list's key list has a successful lookup. -/
theorem mapGet_isSome_of_mem_keys {K V : Type} [DecidableEq K]
    (m : List (K × V)) (k : K) (h : k ∈ m.map (fun p => p.1)) :
    (mapGet m k).isSome := by
  obtain ⟨p, hp, he⟩ := List.mem_map.mp h
  have hs : (m.find? (fun p => decide (p.1 = k))).isSome :=
    List.find?_isSome.mpr ⟨p, hp, by simp [he]⟩
  rw [mapGet]
  cases hf : m.find? (fun p => decide (p.1 = k)) with
  | none => rw [hf] at hs; simp at hs
  | some q => simp

/-- Stable insertion permutes to a cons. -/
theorem insertPhase_perm (a : String) (l : List String) :
    (Constants.insertPhase a l).Perm (a :: l) := by
  induction l with
  | nil => exact List.Perm.refl _
  | cons b bs ih =>
    rw [Constants.insertPhase]
    by_cases h : Constants.phaseLe a b = true
    · rw [if_pos h]
    · rw [if_neg h]
      exact (ih.cons b).trans (List.Perm.swap a b bs)

/-- The canonical phase sort is a permutation of its input. -/
theorem sortPhases_perm (l : List String) : (Constants.sortPhases l).Perm l := by
  induction l with
  | nil => exact List.Perm.refl _
  | cons a l ih =>
    rw [Constants.sortPhases, List.foldr_cons]
    exact (insertPhase_perm a _).trans (ih.cons a)

/-- Lookup in a phase grouping: the entries of the looked-up phase, in input
order, or nothing if that phase never occurs (non-empty). -/
theorem mapGet_phaseGroups (entries : List LogEntry) (k : String) :
    mapGet (Dashboard.phaseGroups entries) k =
      if (entries.filter (fun e => !decide (e.phase = ""))).any
          (fun e => decide (e.phase = k)) then
        some ((entries.filter (fun e => !decide (e.phase = ""))).filter
          (fun e => decide (e.phase = k)))
      else none := by
  rw [phaseGroups_eq_groupFold]
  exact (mapGet_groupFold (fun e : LogEntry => e.phase)
    (entries.filter (fun e => !decide (e.phase = ""))) [] k).trans rfl

/-- Every member of the computed phase statistics is the statistics record of
its own phase name over exactly the input entries carrying that phase. -/
theorem mem_computePhaseStats {entries : List LogEntry} {st : Dashboard.PhaseStats}
    (h : st ∈ Dashboard.computePhaseStats entries) :
    st = Dashboard.statsForPhase st.name
        (entries.filter (fun e => decide (e.phase = st.name))) := by
  obtain ⟨name, hname, hst⟩ := List.mem_map.mp h
  have hkeys : name ∈ (Dashboard.phaseGroups entries).map (fun p => p.1) :=
    (sortPhases_perm _).mem_iff.mp hname
  have hsome := mapGet_isSome_of_mem_keys _ _ hkeys
  have hmg := mapGet_phaseGroups entries name
  by_cases hany : (entries.filter (fun e => !decide (e.phase = ""))).any
      (fun e => decide (e.phase = name)) = true
  · rw [if_pos hany] at hmg
    obtain ⟨e0, he0, hph⟩ := List.any_eq_true.mp hany
    have hne : ¬ name = "" := by
      have h1 := (List.mem_filter.mp he0).2
      have h2 : e0.phase = name := of_decide_eq_true hph
      simp only [h2] at h1
      simpa using h1
    have hfilter : (entries.filter (fun e => !decide (e.phase = ""))).filter
        (fun e => decide (e.phase = name)) =
        entries.filter (fun e => decide (e.phase = name)) := by
      rw [List.filter_filter]
      apply List.filter_congr
      intro e _
      by_cases he : e.phase = name
      · simp [he, hne]
      · simp [he]
    have hstn : st.name = name := by rw [← hst]; rfl
    rw [hstn, ← hst, hmg, Option.getD_some, hfilter]
  · rw [if_neg hany] at hmg
    rw [hmg] at hsome
    simp at hsome

/-- The success-terminal and failure-terminal action sets are disjoint. -/
theorem contains_done_not_failure (a : String)
    (h : Dashboard.DONE_ACTIONS.contains a = true) :
    Dashboard.FAILURE_ACTIONS.contains a = false := by
  have hm : a ∈ Dashboard.DONE_ACTIONS := by simpa using h
  fin_cases hm <;> rfl

/-- A work unit whose latest entry is a success terminal is not also counted
as failed. -/
theorem latestIsDone_not_failure (u : List LogEntry)
    (h : Dashboard.latestIsDone u = true) : Dashboard.latestIsFailure u = false := by
  unfold Dashboard.latestIsDone at h
  unfold Dashboard.latestIsFailure
  cases hl : Dashboard.latestEntry u with
  | none => rw [hl] at h
  | some e =>
    rw [hl] at h
    exact contains_done_not_failure e.action h

/-- A work unit with a START entry is non-empty and has a latest entry. -/
theorem latestEntry_isSome_of_hasStart (u : List LogEntry)
    (h : Dashboard.hasStart u = true) : (Dashboard.latestEntry u).isSome := by
  cases u with
  | nil => simp [Dashboard.hasStart] at h
  | cons e es => simp [Dashboard.latestEntry]

/-- The counting loop over work units computes, for any starting accumulator,
the number of started units, the number of started units whose latest entry
is a success terminal, and the number whose latest entry is a failure
terminal. -/
theorem foldl_unitStep (units : List (List LogEntry)) :
    ∀ acc : Nat × Nat × Nat,
      units.foldl Dashboard.unitStep acc =
        (acc.1 + units.countP Dashboard.hasStart,
         acc.2.1 + units.countP
           (fun u => Dashboard.hasStart u && Dashboard.latestIsDone u),
         acc.2.2 + units.countP
           (fun u => Dashboard.hasStart u && Dashboard.latestIsFailure u)) := by
  induction units with
  | nil => intro acc; simp
  | cons u us ih =>
    intro acc
    rw [List.foldl_cons, ih, List.countP_cons, List.countP_cons, List.countP_cons]
    by_cases hs : Dashboard.hasStart u = true
    · cases hl : Dashboard.latestEntry u with
      | none =>
        have := latestEntry_isSome_of_hasStart u hs
        rw [hl] at this
        simp at this
      | some latest =>
        by_cases hd : Dashboard.DONE_ACTIONS.contains latest.action = true
        · have hdone : Dashboard.latestIsDone u = true := by
            rw [Dashboard.latestIsDone, hl]; exact hd
          have hfail := latestIsDone_not_failure u hdone
          simp only [Dashboard.unitStep, hs, if_true, hl, hd]
          simp [hs, hdone, hfail, Prod.ext_iff]
          try omega
        · simp only [Bool.not_eq_true] at hd
          have hdone : Dashboard.latestIsDone u = false := by
            rw [Dashboard.latestIsDone, hl]; exact hd
          by_cases hf : Dashboard.FAILURE_ACTIONS.contains latest.action = true
          · have hfail : Dashboard.latestIsFailure u = true := by
              rw [Dashboard.latestIsFailure, hl]; exact hf
            simp only [Dashboard.unitStep, hs, if_true, hl, hd, hf]
            simp [hs, hdone, hfail, Prod.ext_iff]
            try omega
          · simp only [Bool.not_eq_true] at hf
            have hfail : Dashboard.latestIsFailure u = false := by
              rw [Dashboard.latestIsFailure, hl]; exact hf
            simp only [Dashboard.unitStep, hs, if_true, hl, hd, hf]
            simp [hs, hdone, hfail, Prod.ext_iff]
            try omega
    · simp only [Bool.not_eq_true] at hs
      simp only [Dashboard.unitStep, hs, Bool.false_eq_true, if_false]
      simp [hs, Prod.ext_iff]

/-- Among any work units, the started-and-done count plus the
started-and-failed count never exceeds the started count. -/
theorem countP_done_add_failure_le (units : List (List LogEntry)) :
    units.countP (fun u => Dashboard.hasStart u && Dashboard.latestIsDone u) +
      units.countP (fun u => Dashboard.hasStart u && Dashboard.latestIsFailure u) ≤
      units.countP Dashboard.hasStart := by
  induction units with
  | nil => simp
  | cons u us ih =>
    rw [List.countP_cons, List.countP_cons, List.countP_cons]
    by_cases hs : Dashboard.hasStart u = true
    · by_cases hd : Dashboard.latestIsDone u = true
      · have hf := latestIsDone_not_failure u hd
        simp [hs, hd, hf]
        omega
      · simp only [Bool.not_eq_true] at hd
        by_cases hf : Dashboard.latestIsFailure u = true
        · simp [hs, hd, hf]; omega
        · simp only [Bool.not_eq_true] at hf
          simp [hs, hd, hf]; omega
    · simp only [Bool.not_eq_true] at hs
      simp [hs]; omega

/-- C4: Phase statistics bounds — every record emitted by computePhaseStats
has a percentage of at most 100 (a natural number, hence an integer in the
range zero to one hundred), and its completed, failure and in-progress
counts sum exactly to its total. -/
theorem computePhaseStats_bounds (entries : List LogEntry)
    (st : Dashboard.PhaseStats) (h : st ∈ Dashboard.computePhaseStats entries) :
    st.percentage ≤ 100 ∧ st.completed + st.failures + st.inProgress = st.total := by
  have hc := mem_computePhaseStats h
  have hle := countP_done_add_failure_le
    ((Dashboard.workUnits (entries.filter
      (fun e => decide (e.phase = st.name)))).map (fun p => p.2))
  rw [hc]
  simp only [Dashboard.statsForPhase, foldl_unitStep, Nat.zero_add]
  constructor
  · split
    · exact Nat.min_le_left 100 _
    · exact Nat.zero_le 100
  · omega

/-- Witness for C4 at a one-entry input. -/
theorem computePhaseStats_bounds_witness :
    ((⟨"implementation", 1, 0, 1, 0, 0, 0⟩ : Dashboard.PhaseStats) ∈
      Dashboard.computePhaseStats [sampleEntry]) ∧
    ((⟨"implementation", 1, 0, 1, 0, 0, 0⟩ : Dashboard.PhaseStats).percentage ≤ 100 ∧
      (⟨"implementation", 1, 0, 1, 0, 0, 0⟩ : Dashboard.PhaseStats).completed +
        (⟨"implementation", 1, 0, 1, 0, 0, 0⟩ : Dashboard.PhaseStats).failures +
        (⟨"implementation", 1, 0, 1, 0, 0, 0⟩ : Dashboard.PhaseStats).inProgress =
        (⟨"implementation", 1, 0, 1, 0, 0, 0⟩ : Dashboard.PhaseStats).total) := by
  have hmem : (⟨"implementation", 1, 0, 1, 0, 0, 0⟩ : Dashboard.PhaseStats) ∈
      Dashboard.computePhaseStats [sampleEntry] := by
    rw [show Dashboard.computePhaseStats [sampleEntry] =
      [⟨"implementation", 1, 0, 1, 0, 0, 0⟩] from rfl]
    exact List.mem_singleton.mpr rfl
  exact ⟨hmem, computePhaseStats_bounds [sampleEntry] _ hmem⟩

/-- C5: Phase work-unit counting — every record emitted by computePhaseStats
counts, over the work units formed by grouping that phase's entries by the
key agent, a pipe, and the task_id when present or else the entry's own
log_seq: its total is the number of units containing at least one START
event, its completed count the number of those whose latest entry by log_seq
carries a success terminal, its failure count the number whose latest entry
carries a failure terminal, and the remaining started units are reported in
progress. -/
theorem computePhaseStats_work_units (entries : List LogEntry)
    (st : Dashboard.PhaseStats) (h : st ∈ Dashboard.computePhaseStats entries) :
    st.total = ((Dashboard.workUnits (entries.filter
        (fun e => decide (e.phase = st.name)))).map (fun p => p.2)).countP
        Dashboard.hasStart ∧
    st.completed = ((Dashboard.workUnits (entries.filter
        (fun e => decide (e.phase = st.name)))).map (fun p => p.2)).countP
        (fun u => Dashboard.hasStart u && Dashboard.latestIsDone u) ∧
    st.failures = ((Dashboard.workUnits (entries.filter
        (fun e => decide (e.phase = st.name)))).map (fun p => p.2)).countP
        (fun u => Dashboard.hasStart u && Dashboard.latestIsFailure u) ∧
    st.inProgress = st.total - st.completed - st.failures := by
  have hc := mem_computePhaseStats h
  rw [hc]
  simp only [Dashboard.statsForPhase, foldl_unitStep, Nat.zero_add]
  simp

/-- Witness for C5 at a one-entry input. -/
theorem computePhaseStats_work_units_witness :
    ((⟨"implementation", 1, 0, 1, 0, 0, 0⟩ : Dashboard.PhaseStats) ∈
      Dashboard.computePhaseStats [sampleEntry]) ∧
    (⟨"implementation", 1, 0, 1, 0, 0, 0⟩ : Dashboard.PhaseStats).total =
      ((Dashboard.workUnits ([sampleEntry].filter
        (fun e => decide (e.phase =
          (⟨"implementation", 1, 0, 1, 0, 0, 0⟩ : Dashboard.PhaseStats).name)))).map
        (fun p => p.2)).countP Dashboard.hasStart := by
  have hmem : (⟨"implementation", 1, 0, 1, 0, 0, 0⟩ : Dashboard.PhaseStats) ∈
      Dashboard.computePhaseStats [sampleEntry] := by
    rw [show Dashboard.computePhaseStats [sampleEntry] =
      [⟨"implementation", 1, 0, 1, 0, 0, 0⟩] from rfl]
    exact List.mem_singleton.mpr rfl
  exact ⟨hmem, (computePhaseStats_work_units [sampleEntry] _ hmem).1⟩

/-- A line other than a primitive-JSON one never makes parseLine throw. -/
theorem parseLine_ne_error (l : LogParser.RawLine)
    (hl : l ≠ LogParser.RawLine.primitive) :
    ∃ v, LogParser.parseLine l = Except.ok v := by
  cases l with
  | blank => exact ⟨none, rfl⟩
  | notWellFormed => exact ⟨none, rfl⟩
  | primitive => exact absurd rfl hl
  | record r =>
    simp only [LogParser.parseLine]
    cases r.log_seq <;> cases r.timestamp <;> cases r.agent <;> cases r.action <;>
      exact ⟨_, rfl⟩

/-- On input with no primitive-JSON line, parseLogContent succeeds, returns
the valid events in input order, and counts as skipped exactly the non-blank
lines whose parse yields null. -/
theorem parseLogContent_no_primitive (lines : List LogParser.RawLine)
    (h : ∀ l ∈ lines, l ≠ LogParser.RawLine.primitive) :
    LogParser.parseLogContent lines =
      Except.ok
        { entries := lines.filterMap parsedEvent
          skippedLines := lines.countP
            (fun l => !LogParser.isBlank l && !(parsedEvent l).isSome)
          parseTimeMs := 0 } := by
  induction lines with
  | nil => rfl
  | cons l ls ih =>
    have hl : l ≠ LogParser.RawLine.primitive := h l (List.mem_cons_self _ _)
    have ih' := ih (fun x hx => h x (List.mem_cons_of_mem _ hx))
    cases l with
    | blank =>
      have hstep : LogParser.parseLogContent (LogParser.RawLine.blank :: ls) =
          LogParser.parseLogContent ls := rfl
      rw [hstep, ih']
      simp [parsedEvent, LogParser.parseLine, LogParser.isBlank, List.countP_cons]
    | notWellFormed =>
      have hstep :
          LogParser.parseLogContent (LogParser.RawLine.notWellFormed :: ls) =
            match LogParser.parseLogContent ls with
            | Except.error e => Except.error e
            | Except.ok r =>
              Except.ok { r with skippedLines := r.skippedLines + 1 } := rfl
      rw [hstep, ih']
      simp [parsedEvent, LogParser.parseLine, LogParser.isBlank, List.countP_cons]
    | primitive => exact absurd rfl hl
    | record r =>
      obtain ⟨v, hv⟩ :=
        parseLine_ne_error (LogParser.RawLine.record r)
          (fun hc => LogParser.RawLine.noConfusion hc)
      have hstep :
          LogParser.parseLogContent (LogParser.RawLine.record r :: ls) =
            match LogParser.parseLine (LogParser.RawLine.record r) with
            | Except.error e => Except.error e
            | Except.ok none =>
              match LogParser.parseLogContent ls with
              | Except.error e => Except.error e
              | Except.ok r2 =>
                Except.ok { r2 with skippedLines := r2.skippedLines + 1 }
            | Except.ok (some entry) =>
              match LogParser.parseLogContent ls with
              | Except.error e => Except.error e
              | Except.ok r2 =>
                Except.ok { r2 with entries := entry :: r2.entries } := rfl
      rw [hstep, hv, ih']
      cases v with
      | none =>
        simp [parsedEvent, hv, LogParser.isBlank, List.countP_cons,
          List.filterMap_cons]
      | some e =>
        simp [parsedEvent, hv, LogParser.isBlank, List.countP_cons,
          List.filterMap_cons]

/-- C6: Parser robustness fails on the code. A non-blank line whose JSON is a
top-level primitive — the line 42, say — parses as JSON, so parseLine's catch
does not fire, and the field-membership test on the primitive throws an
uncaught TypeError: parseLine errors instead of returning null, and the whole
parse of a file holding that line before a valid line errors instead of
returning the valid event with one skipped line, while the valid line alone
parses fine. The claim's count-and-continue property holds only for inputs
with no such line. -/
theorem parse_primitive_line_throws :
    LogParser.parseLine LogParser.RawLine.primitive = Except.error () ∧
    LogParser.parseLogContent
        [LogParser.RawLine.primitive, LogParser.RawLine.record minimalRecord] =
      Except.error () ∧
    LogParser.parseLogContent [LogParser.RawLine.record minimalRecord] =
      Except.ok
        { entries :=
            [{ log_seq := 2, work_seq := "", timestamp := "2026-02-05T00:01:00Z"
               agent := "developer", action := "COMPLETE", phase := ""
               parent_log_seq := none, requirements := [], task_id := none
               details := "", files_created := [], files_modified := []
               decisions := [], errors := [], duration_ms := none }]
          skippedLines := 0, parseTimeMs := 0 } :=
  ⟨rfl, rfl, rfl⟩

/-- The incremental parse is the full parse with the watermark filter applied
to the entries: same error behaviour, same skip count, filtered events. -/
theorem parseIncremental_eq_filter (lines : List LogParser.RawLine) (w : Nat) :
    LogParser.parseIncrementalContent lines w =
      (LogParser.parseLogContent lines).map
        (fun r =>
          { r with entries := r.entries.filter (fun e => decide (w < e.log_seq)) }) := by
  induction lines with
  | nil => rfl
  | cons l ls ih =>
    have hstep1 : LogParser.parseIncrementalContent (l :: ls) w =
        if LogParser.isBlank l then LogParser.parseIncrementalContent ls w
        else
          match LogParser.parseLine l with
          | Except.error e => Except.error e
          | Except.ok none =>
            match LogParser.parseIncrementalContent ls w with
            | Except.error e => Except.error e
            | Except.ok r =>
              Except.ok { r with skippedLines := r.skippedLines + 1 }
          | Except.ok (some entry) =>
            match LogParser.parseIncrementalContent ls w with
            | Except.error e => Except.error e
            | Except.ok r =>
              if w < entry.log_seq then
                Except.ok { r with entries := entry :: r.entries }
              else Except.ok r := rfl
    have hstep2 : LogParser.parseLogContent (l :: ls) =
        if LogParser.isBlank l then LogParser.parseLogContent ls
        else
          match LogParser.parseLine l with
          | Except.error e => Except.error e
          | Except.ok none =>
            match LogParser.parseLogContent ls with
            | Except.error e => Except.error e
            | Except.ok r =>
              Except.ok { r with skippedLines := r.skippedLines + 1 }
          | Except.ok (some entry) =>
            match LogParser.parseLogContent ls with
            | Except.error e => Except.error e
            | Except.ok r =>
              Except.ok { r with entries := entry :: r.entries } := rfl
    by_cases hb : LogParser.isBlank l = true
    · rw [hstep1, hstep2, if_pos hb, if_pos hb, ih]
    · rw [hstep1, hstep2, if_neg hb, if_neg hb, ih]
      cases hp : LogParser.parseLine l with
      | error e => rfl
      | ok v =>
        cases v with
        | none => cases hr : LogParser.parseLogContent ls <;> rfl
        | some entry =>
          cases hr : LogParser.parseLogContent ls with
          | error e => rfl
          | ok r =>
            by_cases hw : w < entry.log_seq
            · simp [Except.map, List.filter_cons, hw]
            · simp [Except.map, List.filter_cons, hw]

/-- C7: Incremental parse equation — for every line list and watermark w, the
events returned by the incremental parse equal the events of the full parse
filtered to log_seq strictly greater than w, in the same order (and when the
full parse throws on a primitive line, so does the incremental one). -/
theorem incremental_parse_filter (lines : List LogParser.RawLine) (w : Nat) :
    (LogParser.parseIncrementalContent lines w).map (fun r => r.entries) =
      (LogParser.parseLogContent lines).map
        (fun r => r.entries.filter (fun e => decide (w < e.log_seq))) := by
  rw [parseIncremental_eq_filter]
  cases LogParser.parseLogContent lines <;> rfl

/-- C10: Incremental parsing re-counts old malformed lines — for every line
list and watermark w, the incremental parse reports exactly the skippedLines
of a full parse of the same content: malformed lines are counted regardless
of the watermark, even when every event at or below the watermark is
withheld. -/
theorem incremental_parse_skippedLines (lines : List LogParser.RawLine) (w : Nat) :
    (LogParser.parseIncrementalContent lines w).map (fun r => r.skippedLines) =
      (LogParser.parseLogContent lines).map (fun r => r.skippedLines) := by
  rw [parseIncremental_eq_filter]
  cases LogParser.parseLogContent lines <;> rfl


namespace LogParser

/-- A decimal digit's code point is outside the ASCII uppercase range, so /i
canonicalisation leaves it alone. -/
theorem lcCode_digit {c : Char} (h : isDigitC c = true) : lcCode c = c.toNat := by
  simp only [isDigitC, decide_eq_true_eq] at h
  unfold lcCode
  rw [if_neg (by omega)]

/-- Canonical equality is reflexive. -/
theorem ciEq_self (c : Char) : ciEq c c = true := by
  simp [ciEq]

/-- The backreference comparison accepts a list against itself. -/
theorem ciListEq_self (l : List Char) : ciListEq l l = true := by
  induction l with
  | nil => rfl
  | cons c cs ih => simp [ciListEq, ciEq_self, ih]

/-- A shared left part cancels in the backreference comparison. -/
theorem ciListEq_append_left (x y z : List Char) :
    ciListEq (x ++ y) (x ++ z) = ciListEq y z := by
  induction x with
  | nil => rfl
  | cons c cs ih => simp [List.cons_append, ciListEq, ciEq_self, ih]

/-- Two digits with different code points are not canonically equal. -/
theorem ciEq_digits_ne {a b : Char} (ha : isDigitC a = true)
    (hb : isDigitC b = true) (hne : a.toNat ≠ b.toNat) : ciEq a b = false := by
  unfold ciEq
  rw [lcCode_digit ha, lcCode_digit hb]
  exact beq_eq_false_iff_ne.mpr hne

/-- A digit is not regex whitespace. -/
theorem isWsC_false_of_digit {c : Char} (h : isDigitC c = true) :
    isWsC c = false := by
  simp only [isDigitC, decide_eq_true_eq] at h
  simp only [isWsC, decide_eq_false_iff_not]
  omega

/-- Any non-whitespace character is matched by the dot. -/
theorem isDotC_of_not_ws {c : Char} (h : isWsC c = false) : isDotC c = true := by
  simp only [isWsC, decide_eq_false_iff_not] at h
  simp only [isDotC, decide_eq_true_eq]
  omega

/-- A digit is matched by the dot. -/
theorem isDotC_of_digit {c : Char} (h : isDigitC c = true) : isDotC c = true :=
  isDotC_of_not_ws (isWsC_false_of_digit h)

/-- A digit is not the hyphen. -/
theorem digit_ne_dash {c : Char} (h : isDigitC c = true) : c ≠ '-' := by
  intro he
  rw [he] at h
  exact absurd h (by decide)

/-- A pattern matches case-insensitively at its own occurrence. -/
theorem matchesAt_self_append (p t : List Char) : matchesAt p (p ++ t) = true := by
  induction p with
  | nil => rfl
  | cons c cs ih => simp [List.cons_append, matchesAt, ciEq_self, ih]

/-- The pattern tail succeeds when the text is exactly the backreferenced
group followed by a non-empty digit run. -/
theorem g3End_self (P g2 d2 : List Char) (hne : d2 ≠ [])
    (hd : d2.all isDigitC = true) : g3End P g2 (P ++ d2) = some (g2, d2) := by
  cases d2 with
  | nil => exact absurd rfl hne
  | cons c cs =>
    unfold g3End
    rw [List.take_left, ciListEq_self, if_pos rfl, List.drop_left]
    simp [hd]

/-- The pattern tail fails when the candidate group one overshoots into the
first digit run while the two digit runs start with different digits. -/
theorem g3End_mismatch (P pre d2 g2 : List Char) (a b : Char)
    (hpre : pre.head? = some a) (hd2 : d2.head? = some b)
    (hpa : isDigitC a = true) (hpb : isDigitC b = true)
    (hne : a.toNat ≠ b.toNat) :
    g3End (P ++ pre) g2 (P ++ d2) = none := by
  cases pre with
  | nil => cases hpre
  | cons a' pre' =>
    cases d2 with
    | nil => cases hd2
    | cons b' d2' =>
      have ha' : a' = a := by injection hpre
      have hb' : b' = b := by injection hd2
      subst ha'
      subst hb'
      have hcond : ciListEq (P ++ a' :: pre')
          ((P ++ b' :: d2').take (P ++ a' :: pre').length) = false := by
        rw [List.length_append, List.take_append,
          show (a' :: pre').length = pre'.length + 1 from rfl,
          List.take_succ_cons, ciListEq_append_left]
        simp [ciListEq, ciEq_digits_ne hpa hpb hne]
      unfold g3End
      rw [hcond]
      rfl

/-- Step equation of ws2Go on a cons cell. -/
theorem ws2Go_cons (g1 g2 : List Char) (c : Char) (rest : List Char) :
    ws2Go g1 g2 (c :: rest) =
      if isWsC c = true then
        match ws2Go g1 g2 rest with
        | some r => some r
        | none => g3End g1 g2 (c :: rest)
      else g3End g1 g2 (c :: rest) := rfl

/-- Step equation of ws2Start on a cons cell. -/
theorem ws2Start_cons (g1 g2 : List Char) (c : Char) (rest : List Char) :
    ws2Start g1 g2 (c :: rest) =
      if isWsC c = true then ws2Go g1 g2 rest else none := rfl

/-- Step equation of ws1Go on a cons cell. -/
theorem ws1Go_cons (g1 g2 : List Char) (c : Char) (rest : List Char) :
    ws1Go g1 g2 (c :: rest) =
      if isWsC c = true then
        match ws1Go g1 g2 rest with
        | some r => some r
        | none => thrStep g1 g2 (c :: rest)
      else thrStep g1 g2 (c :: rest) := rfl

/-- Step equation of ws1Start on a cons cell. -/
theorem ws1Start_cons (g1 g2 : List Char) (c : Char) (rest : List Char) :
    ws1Start g1 g2 (c :: rest) =
      if isWsC c = true then ws1Go g1 g2 rest else none := rfl

/-- Step equation of g2Go on a cons cell. -/
theorem g2Go_cons (g1 g2 : List Char) (c : Char) (rest : List Char) :
    g2Go g1 g2 (c :: rest) =
      if isDigitC c = true then
        match g2Go g1 (g2 ++ [c]) rest with
        | some r => some r
        | none => ws1Start g1 g2 (c :: rest)
      else ws1Start g1 g2 (c :: rest) := rfl

/-- Step equation of matchG2 on a cons cell. -/
theorem matchG2_cons (g1 : List Char) (c : Char) (rest : List Char) :
    matchG2 g1 (c :: rest) =
      if isDigitC c = true then g2Go g1 [c] rest else none := rfl

/-- Step equation of dashStep on a cons cell. -/
theorem dashStep_cons (g1 : List Char) (c : Char) (rest : List Char) :
    dashStep g1 (c :: rest) =
      match
        (if c = '-' then
          (matchG2 (g1 ++ ['-']) rest).map
            (fun p : List Char × List Char => (g1 ++ ['-'], p.1, p.2))
        else none) with
      | some r => some r
      | none =>
        (matchG2 g1 (c :: rest)).map
          (fun p : List Char × List Char => (g1, p.1, p.2)) := rfl

/-- Step equation of g1Go on a cons cell. -/
theorem g1Go_cons (g1 : List Char) (c : Char) (rest : List Char) :
    g1Go g1 (c :: rest) =
      if isDotC c = true then
        match g1Go (g1 ++ [c]) rest with
        | some r => some r
        | none => dashStep g1 (c :: rest)
      else dashStep g1 (c :: rest) := rfl

/-- After the mandatory second whitespace character, a text whose head is not
whitespace goes straight to the pattern tail. -/
theorem ws2Start_exit (g1 g2 v : List Char)
    (hv : ∀ c, v.head? = some c → isWsC c = false) :
    ws2Start g1 g2 (' ' :: v) = g3End g1 g2 v := by
  rw [ws2Start_cons, if_pos (by decide)]
  cases v with
  | nil => rfl
  | cons c rest =>
    rw [ws2Go_cons, hv c rfl]
    simp

/-- The literal through at its own occurrence, followed by one whitespace
character and non-whitespace text, reduces to the pattern tail. -/
theorem thrStep_exit (g1 g2 v : List Char)
    (hv : ∀ c, v.head? = some c → isWsC c = false) :
    thrStep g1 g2 (thruChars ++ (' ' :: v)) = g3End g1 g2 v := by
  unfold thrStep
  rw [matchesAt_self_append, if_pos rfl, List.drop_left]
  exact ws2Start_exit g1 g2 v hv

/-- The first whitespace run stops at the t of through and the rest of the
pattern completes as in thrStep_exit. -/
theorem ws1Go_thru (g1 g2 v : List Char)
    (hv : ∀ c, v.head? = some c → isWsC c = false) :
    ws1Go g1 g2 (thruChars ++ (' ' :: v)) = g3End g1 g2 v := by
  have hsplit : thruChars ++ (' ' :: v) =
      't' :: ("hrough".toList ++ (' ' :: v)) := by
    rw [show thruChars = 't' :: "hrough".toList from by decide]
    rfl
  rw [hsplit, ws1Go_cons, if_neg (by decide), ← hsplit]
  exact thrStep_exit g1 g2 v hv

/-- The first whitespace run of one space before through. -/
theorem ws1Start_exit (g1 g2 v : List Char)
    (hv : ∀ c, v.head? = some c → isWsC c = false) :
    ws1Start g1 g2 (' ' :: (thruChars ++ (' ' :: v))) = g3End g1 g2 v := by
  rw [ws1Start_cons, if_pos (by decide)]
  exact ws1Go_thru g1 g2 v hv

/-- The first whitespace run cannot start on non-whitespace text. -/
theorem ws1Start_stuck (g1 g2 t : List Char)
    (ht : ∀ c, t.head? = some c → isWsC c = false) :
    ws1Start g1 g2 t = none := by
  cases t with
  | nil => rfl
  | cons c rest =>
    rw [ws1Start_cons, ht c rfl]
    simp

/-- The group-two digit run swallows the rest of the first digit run and the
whole tail completes behind it. -/
theorem g2Go_chain (dd : List Char) (v : List Char)
    (hdd : dd.all isDigitC = true)
    (hv : ∀ c, v.head? = some c → isWsC c = false) (g1 : List Char) :
    ∀ acc, g2Go g1 acc (dd ++ (' ' :: (thruChars ++ (' ' :: v)))) =
      g3End g1 (acc ++ dd) v := by
  induction dd with
  | nil =>
    intro acc
    rw [List.nil_append, List.append_nil, g2Go_cons, if_neg (by decide)]
    exact ws1Start_exit g1 acc v hv
  | cons c cs ih =>
    intro acc
    have hc : isDigitC c = true := by
      have := hdd
      simp [List.all_cons] at this
      exact this.1
    have hcs : cs.all isDigitC = true := by
      have := hdd
      simp [List.all_cons] at this
      exact (List.all_eq_true.mpr (fun x hx => by
        exact this.2 x hx))
    rw [List.cons_append, g2Go_cons, if_pos hc]
    rw [ih hcs (acc ++ [c])]
    have hacc : (acc ++ [c]) ++ cs = acc ++ (c :: cs) := by
      rw [List.append_assoc]
      rfl
    rw [hacc]
    cases hg : g3End g1 (acc ++ (c :: cs)) v with
    | some r => rfl
    | none =>
      have hstuck : ws1Start g1 acc (c :: (cs ++ (' ' :: (thruChars ++ (' ' :: v))))) = none := by
        apply ws1Start_stuck
        intro x hx
        have hxc : c = x := by injection hx
        rw [← hxc]
        exact isWsC_false_of_digit hc
      rw [hstuck]

/-- Group two over a whole non-empty digit run, with the tail completing
behind it. -/
theorem matchG2_chain (dd v : List Char) (hne : dd ≠ [])
    (hdd : dd.all isDigitC = true)
    (hv : ∀ c, v.head? = some c → isWsC c = false) (g1 : List Char) :
    matchG2 g1 (dd ++ (' ' :: (thruChars ++ (' ' :: v)))) = g3End g1 dd v := by
  cases dd with
  | nil => exact absurd rfl hne
  | cons c cs =>
    have hc : isDigitC c = true := by
      simp [List.all_cons] at hdd
      exact hdd.1
    have hcs : cs.all isDigitC = true := by
      simp [List.all_cons] at hdd
      exact List.all_eq_true.mpr (fun x hx => hdd.2 x hx)
    rw [List.cons_append, matchG2_cons, if_pos hc, g2Go_chain cs v hcs hv g1 [c]]
    rfl

/-- Group two never completes on text with no whitespace at all. -/
theorem g2Go_noWs (t : List Char) (ht : t.all (fun c => !isWsC c) = true) :
    ∀ g1 acc, g2Go g1 acc t = none := by
  induction t with
  | nil => intro g1 acc; rfl
  | cons c rest ih =>
    intro g1 acc
    have hc : isWsC c = false := by
      simp [List.all_cons] at ht
      exact ht.1
    have hrest : rest.all (fun c => !isWsC c) = true := by
      simp [List.all_cons] at ht
      exact List.all_eq_true.mpr (fun x hx => by simpa using ht.2 x hx)
    have hstuck : ws1Start g1 acc (c :: rest) = none := by
      apply ws1Start_stuck
      intro x hx
      have hxc : c = x := by injection hx
      rw [← hxc]
      exact hc
    rw [g2Go_cons]
    by_cases hd : isDigitC c = true
    · rw [if_pos hd, ih hrest g1 (acc ++ [c]), hstuck]
    · rw [if_neg hd]
      exact hstuck

/-- The whole digit-run stage never completes on text with no whitespace. -/
theorem matchG2_noWs (t : List Char) (ht : t.all (fun c => !isWsC c) = true)
    (g1 : List Char) : matchG2 g1 t = none := by
  cases t with
  | nil => rfl
  | cons c rest =>
    rw [matchG2_cons]
    by_cases hd : isDigitC c = true
    · rw [if_pos hd]
      have hrest : rest.all (fun c => !isWsC c) = true := by
        simp [List.all_cons] at ht
        exact List.all_eq_true.mpr (fun x hx => by simpa using ht.2 x hx)
      exact g2Go_noWs rest hrest g1 [c]
    · rw [if_neg hd]

/-- With a digit at the head, the optional hyphen is skipped and the result
is the hyphen-less continuation. -/
theorem dashStep_digit (g1 : List Char) (c : Char) (rest : List Char)
    (hc : isDigitC c = true) :
    dashStep g1 (c :: rest) =
      (matchG2 g1 (c :: rest)).map
        (fun p : List Char × List Char => (g1, p.1, p.2)) := by
  rw [dashStep_cons, if_neg (digit_ne_dash hc)]

/-- With a head that is neither a digit nor a hyphen, the hyphen stage and
the digit run both fail. -/
theorem dashStep_inert (g1 : List Char) (c : Char) (rest : List Char)
    (hdash : c ≠ '-') (hd : isDigitC c = false) :
    dashStep g1 (c :: rest) = none := by
  rw [dashStep_cons, if_neg hdash, matchG2_cons, hd]
  simp

/-- Group one can never complete on text with no whitespace: the mandatory
first whitespace run has nowhere to match. -/
theorem g1Go_noWs (t : List Char) (ht : t.all (fun c => !isWsC c) = true) :
    ∀ acc, g1Go acc t = none := by
  induction t with
  | nil => intro acc; rfl
  | cons c rest ih =>
    intro acc
    have hc : isWsC c = false := by
      simp [List.all_cons] at ht
      exact ht.1
    have hrest : rest.all (fun c => !isWsC c) = true := by
      simp [List.all_cons] at ht
      exact List.all_eq_true.mpr (fun x hx => by simpa using ht.2 x hx)
    have hdash : dashStep acc (c :: rest) = none := by
      rw [dashStep_cons]
      have hm : matchG2 acc (c :: rest) = none := matchG2_noWs (c :: rest) ht acc
      rw [hm]
      by_cases hdc : c = '-'
      · rw [if_pos hdc, matchG2_noWs rest hrest (acc ++ ['-'])]
        rfl
      · rw [if_neg hdc]
        rfl
    rw [g1Go_cons, isDotC_of_not_ws hc, if_pos rfl, ih hrest (acc ++ [c]), hdash]

/-- A space wall: group one can never start at a space whose right context
has no whitespace (the would-be second separator of the pattern). -/
theorem g1Go_space_wall (v : List Char)
    (hv : v.all (fun c => !isWsC c) = true) :
    ∀ acc, g1Go acc (' ' :: v) = none := by
  intro acc
  rw [g1Go_cons, if_pos (by decide), g1Go_noWs v hv (acc ++ [' '])]
  exact dashStep_inert acc ' ' v (by decide) (by decide)

/-- Characters of the literal through are letters: not digits, not hyphens,
matched by the dot. -/
theorem thruChars_inert :
    ∀ c ∈ thruChars, isDigitC c = false ∧ c ≠ '-' ∧ isDotC c = true := by
  intro c hc
  have hmem : c ∈ ['t', 'h', 'r', 'o', 'u', 'g', 'h'] := by
    rw [show thruChars = ['t', 'h', 'r', 'o', 'u', 'g', 'h'] from by decide] at hc
    exact hc
  fin_cases hmem <;> exact ⟨by decide, by decide, by decide⟩

/-- Group one cannot start anywhere inside a segment of inert characters
whose right context also rejects it. -/
theorem g1Go_seg (seg v : List Char)
    (hseg : ∀ c ∈ seg, isDigitC c = false ∧ c ≠ '-' ∧ isDotC c = true)
    (hv : ∀ acc, g1Go acc v = none) :
    ∀ acc, g1Go acc (seg ++ v) = none := by
  induction seg with
  | nil => intro acc; rw [List.nil_append]; exact hv acc
  | cons c cs ih =>
    intro acc
    obtain ⟨hd, hdash, hdot⟩ := hseg c (List.mem_cons_self _ _)
    have hcs : ∀ x ∈ cs, isDigitC x = false ∧ x ≠ '-' ∧ isDotC x = true :=
      fun x hx => hseg x (List.mem_cons_of_mem _ hx)
    rw [List.cons_append, g1Go_cons, hdot, if_pos rfl, ih hcs (acc ++ [c])]
    exact dashStep_inert acc c (cs ++ v) hdash hd

/-- A space wall before through: group one can never start at the first
separator of the pattern. -/
theorem g1Go_space1 (v : List Char)
    (hv : v.all (fun c => !isWsC c) = true) :
    ∀ acc, g1Go acc (' ' :: (thruChars ++ (' ' :: v))) = none := by
  intro acc
  have hseg : ∀ acc2, g1Go acc2 (thruChars ++ (' ' :: v)) = none :=
    g1Go_seg thruChars (' ' :: v) thruChars_inert (g1Go_space_wall v hv)
  rw [g1Go_cons, if_pos (by decide), hseg (acc ++ [' '])]
  exact dashStep_inert acc ' ' (thruChars ++ (' ' :: v)) (by decide) (by decide)

/-- Once group one has overshot into the first digit run, no completion is
possible anywhere to the right: every deeper extension fails and every
backtracked hyphen-less match trips over the backreference, because the two
digit runs start with different digits. -/
theorem g1Go_d1_walk (P d1 d2 : List Char)
    (hPw : P.all (fun c => !isWsC c) = true)
    (hd2 : d2 ≠ []) (ha1 : d1.all isDigitC = true) (ha2 : d2.all isDigitC = true)
    (hfd : (d1.headD '0').toNat ≠ (d2.headD '0').toNat) :
    ∀ e pre, d1 = pre ++ e → pre ≠ [] →
      g1Go (P ++ pre) (e ++ (' ' :: (thruChars ++ (' ' :: (P ++ d2))))) = none := by
  have hPd2 : (P ++ d2).all (fun c => !isWsC c) = true := by
    rw [List.all_append, Bool.and_eq_true]
    refine And.intro hPw ?_
    exact List.all_eq_true.mpr (fun x hx => by
      simp [isWsC_false_of_digit (List.all_eq_true.mp ha2 x hx)])
  have hPd2head : ∀ c, (P ++ d2).head? = some c → isWsC c = false := by
    intro c hc
    have hmem : c ∈ P ++ d2 := List.mem_of_mem_head? hc
    have := List.all_eq_true.mp hPd2 c hmem
    simpa using this
  intro e
  induction e with
  | nil =>
    intro pre hsplit hpre
    rw [List.nil_append]
    exact g1Go_space1 (P ++ d2) hPd2 (P ++ pre)
  | cons c e' ih =>
    intro pre hsplit hpre
    have hce : (c :: e').all isDigitC = true := by
      have ha1' := ha1
      rw [hsplit, List.all_append, Bool.and_eq_true] at ha1'
      exact ha1'.2
    have hc : isDigitC c = true := by
      simp [List.all_cons] at hce
      exact hce.1
    have hnext : g1Go (P ++ (pre ++ [c]))
        (e' ++ (' ' :: (thruChars ++ (' ' :: (P ++ d2))))) = none := by
      apply ih (pre ++ [c])
      · rw [hsplit, List.append_assoc]
        rfl
      · exact fun hcon => by simp at hcon
    have hacc : (P ++ pre) ++ [c] = P ++ (pre ++ [c]) := by
      rw [List.append_assoc]
    have hmm : g3End (P ++ pre) (c :: e') (P ++ d2) = none := by
      obtain ⟨a, pre', hpre'⟩ : ∃ a pre', pre = a :: pre' := by
        cases pre with
        | nil => exact absurd rfl hpre
        | cons a pre' => exact ⟨a, pre', rfl⟩
      have hahead : pre.head? = some a := by rw [hpre']; rfl
      obtain ⟨b, d2', hd2'⟩ : ∃ b d2', d2 = b :: d2' := by
        cases d2 with
        | nil => exact absurd rfl hd2
        | cons b d2' => exact ⟨b, d2', rfl⟩
      have hbhead : d2.head? = some b := by rw [hd2']; rfl
      have hpa : isDigitC a = true := by
        apply List.all_eq_true.mp ha1
        rw [hsplit, hpre']
        exact List.mem_append_left _ (List.mem_cons_self _ _)
      have hpb : isDigitC b = true := by
        apply List.all_eq_true.mp ha2
        rw [hd2']
        exact List.mem_cons_self _ _
      have hane : a.toNat ≠ b.toNat := by
        have h1 : d1.headD '0' = a := by
          rw [hsplit, hpre']
          rfl
        have h2 : d2.headD '0' = b := by
          rw [hd2']
          rfl
        rw [h1, h2] at hfd
        exact hfd
      exact g3End_mismatch P pre d2 (c :: e') a b hahead hbhead hpa hpb hane
    have hfall : dashStep (P ++ pre)
        (c :: (e' ++ (' ' :: (thruChars ++ (' ' :: (P ++ d2)))))) = none := by
      rw [dashStep_digit (P ++ pre) c _ hc]
      have hch : matchG2 (P ++ pre)
          ((c :: e') ++ (' ' :: (thruChars ++ (' ' :: (P ++ d2))))) =
            g3End (P ++ pre) (c :: e') (P ++ d2) :=
        matchG2_chain (c :: e') (P ++ d2) (fun hcon => by simp at hcon)
          hce hPd2head (P ++ pre)
      rw [List.cons_append] at hch
      rw [hch, hmm]
      rfl
    rw [List.cons_append, g1Go_cons, isDotC_of_digit hc, if_pos rfl, hacc,
      hnext, hfall]

/-- Walking group one through the prefix: at every position inside the
prefix the greedy extension succeeds deeper, and at the end of the prefix the
overshoot into the digits fails, so the hyphen-less backtrack captures
exactly the prefix, the first digit run, and the second digit run. -/
theorem g1Go_P_walk (P d1 d2 : List Char)
    (hPw : P.all (fun c => !isWsC c) = true)
    (hd1 : d1 ≠ []) (hd2 : d2 ≠ [])
    (ha1 : d1.all isDigitC = true) (ha2 : d2.all isDigitC = true)
    (hfd : (d1.headD '0').toNat ≠ (d2.headD '0').toNat) :
    ∀ Psuf Ppre, P = Ppre ++ Psuf → Ppre ≠ [] →
      g1Go Ppre (Psuf ++ (d1 ++ (' ' :: (thruChars ++ (' ' :: (P ++ d2)))))) =
        some (P, d1, d2) := by
  have hPd2head : ∀ c, (P ++ d2).head? = some c → isWsC c = false := by
    intro c hc
    have hmem : c ∈ P ++ d2 := List.mem_of_mem_head? hc
    rcases List.mem_append.mp hmem with hmP | hmd
    · simpa using List.all_eq_true.mp hPw c hmP
    · exact isWsC_false_of_digit (List.all_eq_true.mp ha2 c hmd)
  intro Psuf
  induction Psuf with
  | nil =>
    intro Ppre hsplit hne
    rw [List.append_nil] at hsplit
    subst hsplit
    rw [List.nil_append]
    obtain ⟨c, d1', hd1'⟩ : ∃ c d1', d1 = c :: d1' := by
      cases d1 with
      | nil => exact absurd rfl hd1
      | cons c d1' => exact ⟨c, d1', rfl⟩
    have hc : isDigitC c = true := by
      apply List.all_eq_true.mp ha1
      rw [hd1']
      exact List.mem_cons_self _ _
    have hnext : g1Go (P ++ [c])
        (d1' ++ (' ' :: (thruChars ++ (' ' :: (P ++ d2))))) = none := by
      apply g1Go_d1_walk P d1 d2 hPw hd2 ha1 ha2 hfd d1' [c]
      · rw [hd1']
        rfl
      · exact fun hcon => by simp at hcon
    have hg3 : g3End P d1 (P ++ d2) = some (d1, d2) :=
      g3End_self P d1 d2 hd2 ha2
    have hch : matchG2 P
        (d1 ++ (' ' :: (thruChars ++ (' ' :: (P ++ d2))))) =
          g3End P d1 (P ++ d2) :=
      matchG2_chain d1 (P ++ d2) hd1 ha1 hPd2head P
    have hfall : dashStep P
        (c :: (d1' ++ (' ' :: (thruChars ++ (' ' :: (P ++ d2)))))) =
          some (P, d1, d2) := by
      rw [dashStep_digit P c _ hc]
      have hcd : c :: (d1' ++ (' ' :: (thruChars ++ (' ' :: (P ++ d2))))) =
          d1 ++ (' ' :: (thruChars ++ (' ' :: (P ++ d2)))) := by
        rw [hd1']
        rfl
      rw [hcd, hch, hg3]
      rfl
    rw [hd1', List.cons_append, g1Go_cons, isDotC_of_digit hc, if_pos rfl]
    rw [show d1' ++ (' ' :: (thruChars ++ (' ' :: ((P ++ d2))))) =
      d1' ++ (' ' :: (thruChars ++ (' ' :: (P ++ d2)))) from rfl]
    rw [hnext, hfall]
    show some (P, d1, d2) = some (P, c :: d1', d2)
    rw [hd1']
  | cons c Ps' ih =>
    intro Ppre hsplit hne
    have hcP : c ∈ P := by
      rw [hsplit]
      exact List.mem_append_right _ (List.mem_cons_self _ _)
    have hcw : isWsC c = false := by
      simpa using List.all_eq_true.mp hPw c hcP
    have hnext : g1Go (Ppre ++ [c])
        (Ps' ++ (d1 ++ (' ' :: (thruChars ++ (' ' :: (P ++ d2)))))) =
          some (P, d1, d2) := by
      apply ih (Ppre ++ [c])
      · rw [hsplit, List.append_assoc]
        rfl
      · exact fun hcon => by simp at hcon
    rw [List.cons_append, g1Go_cons, isDotC_of_not_ws hcw, if_pos rfl, hnext]

/-- The anchored match on a canonical composition whose non-empty prefix has
no whitespace and whose digit runs start with different digits captures
exactly the composition's three parts. -/
theorem rangeMatch_canonical (p : String) (d1 d2 : List Char)
    (hp : p.toList ≠ []) (hpw : p.toList.all (fun c => !isWsC c) = true)
    (hd1 : d1 ≠ []) (hd2 : d2 ≠ [])
    (ha1 : d1.all isDigitC = true) (ha2 : d2.all isDigitC = true)
    (hfd : (d1.headD '0').toNat ≠ (d2.headD '0').toNat) :
    rangeMatch (p ++ String.mk d1 ++ " through " ++ p ++ String.mk d2) =
      some (p.toList, d1, d2) := by
  have hsep : (" through " : String).toList = ' ' :: (thruChars ++ [' ']) := by
    decide
  have htl : (p ++ String.mk d1 ++ " through " ++ p ++ String.mk d2).toList =
      p.toList ++ (d1 ++ (' ' :: (thruChars ++ (' ' :: (p.toList ++ d2))))) := by
    show p.toList ++ d1 ++ (" through " : String).toList ++ p.toList ++ d2 =
      p.toList ++ (d1 ++ (' ' :: (thruChars ++ (' ' :: (p.toList ++ d2)))))
    rw [hsep]
    simp [List.append_assoc]
  unfold rangeMatch
  rw [htl]
  obtain ⟨c0, P', hP⟩ : ∃ c0 P', p.toList = c0 :: P' := by
    cases hx : p.toList with
    | nil => exact absurd hx hp
    | cons c0 P' => exact ⟨c0, P', rfl⟩
  have hdot : isDotC c0 = true := by
    apply isDotC_of_not_ws
    have : c0 ∈ p.toList := by
      rw [hP]
      exact List.mem_cons_self _ _
    simpa using List.all_eq_true.mp hpw c0 this
  rw [hP] at hpw
  rw [hP, List.cons_append]
  show (if isDotC c0 = true then
      g1Go [c0] (P' ++ (d1 ++ (' ' :: (thruChars ++ (' ' :: ((c0 :: P') ++ d2))))))
    else none) = some (c0 :: P', d1, d2)
  rw [hdot, if_pos rfl]
  exact g1Go_P_walk (c0 :: P') d1 d2 hpw hd1 hd2
    ha1 ha2 hfd P' [c0] rfl (fun hcon => by simp at hcon)

/-- C8 (amended): requirement range expansion follows the code's anchored
pattern, whose group one is non-empty. For every canonical composition of a
non-empty whitespace-free string p, a digit run d1, one space, the word
through, one space, p again and a digit run d2, where d1 and d2 start with
different digits, the code captures exactly (p, d1, d2) and returns: the
composition itself as a singleton when the first number exceeds the second,
and otherwise the inclusive enumeration from the first number to the second,
each value zero-padded to d1's width and prepended with p. Every string the
pattern does not match — in particular one whose left and right prefixes are
empty — passes through unchanged as a singleton. -/
theorem expandRequirementRange_spec :
    (∀ (p : String) (d1 d2 : List Char),
      p.toList ≠ [] →
      p.toList.all (fun c => !isWsC c) = true →
      d1 ≠ [] → d2 ≠ [] →
      d1.all isDigitC = true → d2.all isDigitC = true →
      (d1.headD '0').toNat ≠ (d2.headD '0').toNat →
      expandRequirementRange
          (p ++ String.mk d1 ++ " through " ++ p ++ String.mk d2) =
        if digitsToNat d2 < digitsToNat d1 then
          [p ++ String.mk d1 ++ " through " ++ p ++ String.mk d2]
        else
          (List.range' (digitsToNat d1)
              (digitsToNat d2 + 1 - digitsToNat d1)).map
            (fun i => p ++ zeroPad d1.length i)) ∧
    (∀ s, rangeMatch s = none → expandRequirementRange s = [s]) := by
  constructor
  · intro p d1 d2 hp hpw hd1 hd2 ha1 ha2 hfd
    unfold expandRequirementRange
    rw [rangeMatch_canonical p d1 d2 hp hpw hd1 hd2 ha1 ha2 hfd]
    rfl
  · intro s h
    unfold expandRequirementRange
    rw [h]

/-- Witness for C8: the concrete range P-1 through P-3 expands to the three
padded values. -/
theorem expandRequirementRange_spec_witness :
    expandRequirementRange "P-1 through P-3" = ["P-1", "P-2", "P-3"] := by
  have h := expandRequirementRange_spec.1 "P-" ['1'] ['3']
    (by decide) (by decide) (by decide) (by decide) (by decide) (by decide)
    (by decide)
  have he : ("P-" ++ String.mk ['1'] ++ " through " ++ "P-" ++
      String.mk ['3'] : String) = "P-1 through P-3" := by decide
  rw [he] at h
  rw [h]
  decide

/-- C8 counterexample to the original claim: 1 through 3 has the claimed
shape with an empty prefix, digit runs 1 and 3 and an ascending range, yet
the code returns it unchanged rather than the enumeration 1, 2, 3, because
the regex group one needs at least one character before the first digit
run. -/
theorem expandRequirementRange_counterexample :
    expandRequirementRange "1 through 3" = ["1 through 3"] ∧
    ("1 through 3" : String) =
      "" ++ String.mk ['1'] ++ " through " ++ "" ++ String.mk ['3'] ∧
    (['1'].all isDigitC = true ∧ ['3'].all isDigitC = true ∧
      digitsToNat ['1'] ≤ digitsToNat ['3']) ∧
    expandRequirementRange "1 through 3" ≠
      (List.range' 1 3).map (fun i => "" ++ zeroPad 1 i) := by
  refine ⟨by decide, by decide, ⟨by decide, by decide, by decide⟩, by decide⟩

end LogParser

end ActivityViewer
